import Mathlib

/-!
# Verification of the banyandb part-storage layer

A shallow embedding of the segment ("part") storage layer:
the fadvis threshold registry (`banyand/fadvis/helper.go`), the
`ChunkIDs.HashIntersect` set operation, the sequential reader and k-way
block-metadata merge reader (`banyand/measure/block_reader.go`), and the
stream segment builder, flush, reopen and reference-counted wrapper
(`banyand/stream/part.go`).

Pure data is translated directly from the Go source.  Collaborator code
that is not part of the sources at hand (the `partMergeIter` advance
protocol, the heap comparison key, the `elements` sort order, tag-value
serialized sizes, the metadata codec and the filesystem abstraction) is
modelled from the specification; every such definition carries a doc
comment starting with `Modelled from the spec:`.
-/

/- ------------------------------------------------------------------ -/
/- Definitions: fadvis threshold registry (banyand/fadvis/helper.go)  -/
/- ------------------------------------------------------------------ -/

/-- `SetThreshold` (banyand/fadvis/helper.go): stores the new value only when
it is positive; otherwise the previous value is retained.  The process-wide
atomic is modelled by explicit state passing of the current value. -/
def SetThreshold (cur threshold : Int) : Int :=
  if threshold > 0 then threshold else cur

/-- `GetThreshold` (banyand/fadvis/helper.go): returns the current value. -/
def GetThreshold (cur : Int) : Int := cur

/-- `ApplyIfLarge` (banyand/fadvis/helper.go): stats the file and applies the
cache hint exactly when the file size strictly exceeds the threshold.  The
stat result is passed in (`none` models a stat error); the return value says
whether the hint utility was invoked. -/
def ApplyIfLarge (cur : Int) (statResult : Option Int) : Bool :=
  match statResult with
  | some size => decide (size > cur)
  | none => false

/- ------------------------------------------------------------------ -/
/- Definitions: ChunkIDs.HashIntersect (api/common)                   -/
/- ------------------------------------------------------------------ -/

/-- `ChunkIDs.HashIntersect`: builds a hash set from the receiver and keeps
every element of `other` that is present in it.  A Go map keyed by ChunkID
has the membership semantics of a finite set of the receiver's elements, so
the hash lookup is modelled by list membership in the receiver. -/
def HashIntersect (c other : List Nat) : List Nat :=
  if c = [] ∨ other = [] then []
  else other.filter (fun item => decide (item ∈ c))

/- ------------------------------------------------------------------ -/
/- Definitions: seqReader.mustReadFull (banyand/measure/block_reader) -/
/- ------------------------------------------------------------------ -/

/-- Errors returned by Go's `io.ReadFull`. -/
inductive ioReadErr where
  | eof
  | unexpectedEOF
deriving Repr, DecidableEq

/-- Modelled from the spec: Go's `io.ReadFull` contract over a sequential
stream holding `stream` remaining bytes, asked for `k` bytes.  It returns the
number of bytes read together with `io.EOF` when no bytes were available,
`io.ErrUnexpectedEOF` when some but not all were, and no error on a full
read. -/
def ioReadFull (stream : List Nat) (k : Nat) : Nat × Option ioReadErr :=
  if k ≤ stream.length then (k, none)
  else if stream.length = 0 then (0, some .eof)
  else (stream.length, some .unexpectedEOF)

/-- `seqReader` (banyand/measure/block_reader.go): cursor state relevant to
`mustReadFull` — the remaining bytes of the wrapped sequential stream and the
cumulative `bytesRead` counter. -/
structure seqReader where
  stream : List Nat
  bytesRead : Nat
deriving Repr, DecidableEq

/-- `seqReader.mustReadFull`: reads `data.length` bytes.  A clean `io.EOF`
returns silently (destination untouched, counter unchanged); any other error,
or a short read, panics (modelled as `none`).  On success it returns the
advanced cursor and the bytes placed into the destination buffer. -/
def mustReadFull (sr : seqReader) (data : List Nat) : Option (seqReader × List Nat) :=
  let res := ioReadFull sr.stream data.length
  match res.2 with
  | some .eof => some (sr, data)
  | some .unexpectedEOF => none
  | none =>
    if res.1 ≠ data.length then none
    else some ({ stream := sr.stream.drop res.1, bytesRead := sr.bytesRead + res.1 },
               sr.stream.take res.1)

/- ------------------------------------------------------------------ -/
/- Definitions: partWrapper lifecycle (banyand/stream/part.go)        -/
/- ------------------------------------------------------------------ -/

/-- A reference-count operation on a `partWrapper`. -/
inductive refOp where
  | inc
  | dec
deriving Repr, DecidableEq

/-- `partWrapper` (banyand/stream/part.go): the observable state of the
wrapper.  `hasMp` models `mp != nil` (memory-backed), `hasFS` models
`p.fileSystem != nil`; the three counters record how many times each cleanup
effect has run: `releaseMemPart(pw.mp)`, `pw.p.close()` and the scheduling of
the background `MustRMAll` deletion. -/
structure partWrapper where
  ref : Int
  hasMp : Bool
  removable : Bool
  hasFS : Bool
  memReleased : Nat
  closed : Nat
  removeScheduled : Nat
deriving Repr, DecidableEq

/-- `newPartWrapper`: reference count starts at 1; no cleanup has run. -/
def newPartWrapper (hasMp removable hasFS : Bool) : partWrapper :=
  { ref := 1, hasMp := hasMp, removable := removable, hasFS := hasFS,
    memReleased := 0, closed := 0, removeScheduled := 0 }

/-- `partWrapper.incRef`: atomic increment. -/
def incRef (pw : partWrapper) : partWrapper := { pw with ref := pw.ref + 1 }

/-- `partWrapper.decRef`: atomic decrement; when the new count is not
positive, the cleanup path runs — a memory-backed wrapper returns its
`memPart` to the pool, a file-backed wrapper closes its streams and, if
removable with a filesystem attached, schedules directory removal. -/
def decRef (pw : partWrapper) : partWrapper :=
  let n := pw.ref - 1
  if n > 0 then { pw with ref := n }
  else if pw.hasMp then
    { pw with ref := n, hasMp := false, memReleased := pw.memReleased + 1 }
  else
    let sched := if pw.removable && pw.hasFS then pw.removeScheduled + 1 else pw.removeScheduled
    { pw with ref := n, closed := pw.closed + 1, removeScheduled := sched }

/-- Runs a sequence of `incRef`/`decRef` calls (the claim's sequential model
of the balanced call sequence). -/
def runRefOps (pw : partWrapper) (ops : List refOp) : partWrapper :=
  ops.foldl (fun s op => match op with | .inc => incRef s | .dec => decRef s) pw

/-- Number of `dec` operations in a sequence. -/
def decCount (ops : List refOp) : Nat := ops.countP (fun op => op == refOp.dec)

/-- Number of `inc` operations in a sequence. -/
def incCount (ops : List refOp) : Nat := ops.countP (fun op => op == refOp.inc)

/- ------------------------------------------------------------------ -/
/- Definitions: segment builder (banyand/stream/part.go)              -/
/- ------------------------------------------------------------------ -/

/-- Modelled from the spec: one tag value, represented by the result of its
`size()` method (the serialized byte size); the concrete value encoding is
out of the spec's scope. -/
structure tagValue where
  size : Nat
deriving Repr, DecidableEq

/-- One tag family carried by a row: the family name (`tag`) and its
values, as accessed by `uncompressedElementSizeBytes`. -/
structure tagValues where
  tag : String
  values : List tagValue
deriving Repr, DecidableEq

/-- One row of the `elements` batch.  The Go `elements` type is a
struct-of-arrays (`seriesIDs`, `timestamps`, `elementIDs`, `tagFamilies`
indexed in parallel); it is embedded as a list of per-index rows. -/
structure element where
  seriesID : Nat
  timestamp : Int
  elementID : Nat
  tagFamilies : List tagValues
deriving Repr, DecidableEq

/-- `uncompressedElementSizeBytes` (banyand/stream/part.go): 8 bytes for the
timestamp, 8 for the elementID, plus for every tag family the length of its
name and the serialized size of every value. -/
def uncompressedElementSizeBytes (e : element) : Nat :=
  8 + 8 + (e.tagFamilies.map (fun tf =>
    tf.tag.length + (tf.values.map (fun v => v.size)).sum)).sum

/-- Modelled from the spec: the `elements` sort order — first by series
identifier, then by timestamp (the `sort.Sort(es)` comparator is not among
the sources at hand). -/
def elementsLe (x y : element) : Bool :=
  x.seriesID < y.seriesID || (x.seriesID == y.seriesID && x.timestamp ≤ y.timestamp)

/-- Modelled from the spec: inserts a row into a sorted batch, keeping the
(series identifier, timestamp) order. -/
def insertSorted (e : element) : List element → List element
  | [] => [e]
  | x :: xs => if elementsLe e x then e :: x :: xs else x :: insertSorted e xs

/-- Modelled from the spec: `sort.Sort(es)` sorts the batch by (series
identifier, timestamp).  Go's `sort.Sort` is an unstable comparison sort;
any sorted permutation satisfies the contract, and this insertion sort
produces one of them. -/
def sortElements : List element → List element
  | [] => []
  | e :: es => insertSorted e (sortElements es)

/-- One block written by `bsw.MustWriteElements(sid, rows...)`: the series
identifier passed to the writer and the rows of the slice it was handed. -/
structure writtenBlock where
  sid : Nat
  rows : List element
deriving Repr, DecidableEq

/-- The partitioning loop of `memPart.mustInitFromElements`
(banyand/stream/part.go lines 150-166), with the slice bookkeeping
(`indexPrev`, `es[indexPrev:i]`) carried as the reversed current block
`cur`.  At each row the running `uncompressedBlockSizeBytes` is checked
against the cap *before* the row's own size is added, and `sidPrev == 0`
is treated as "unset". -/
def initLoop (maxSize : Nat) : List element → Nat → Nat → List element → List writtenBlock
  | [], sidPrev, _, cur => [⟨sidPrev, cur.reverse⟩]
  | e :: rest, sidPrev, size, cur =>
    let sid := e.seriesID
    let sidPrev1 := if sidPrev == 0 then sid else sidPrev
    if size ≥ maxSize || sid != sidPrev1 then
      ⟨sidPrev1, cur.reverse⟩ :: initLoop maxSize rest sid (uncompressedElementSizeBytes e) [e]
    else
      initLoop maxSize rest sidPrev1 (size + uncompressedElementSizeBytes e) (e :: cur)

/-- `memPart.mustInitFromElements` (banyand/stream/part.go): resets the
builder, returns immediately on an empty batch, sorts the batch and
partitions it into written blocks.  `maxSize` stands for the
`maxUncompressedBlockSize` constant (its numeric value is not among the
sources at hand), passed as a parameter. -/
def mustInitFromElements (maxSize : Nat) (es : List element) : List writtenBlock :=
  if es.isEmpty then []
  else initLoop maxSize (sortElements es) 0 0 []

/-- Total uncompressed size of a list of rows. -/
def sizeSum (es : List element) : Nat := (es.map uncompressedElementSizeBytes).sum

/-- The (series identifier, timestamp) order as a proposition on rows. -/
def elLe (x y : element) : Prop :=
  x.seriesID < y.seriesID ∨ (x.seriesID = y.seriesID ∧ x.timestamp ≤ y.timestamp)

instance (x y : element) : Decidable (elLe x y) := by
  unfold elLe; infer_instance

/-- Timestamp of the first row of a block (blocks written by the builder are
never empty when the cap is positive). -/
def firstTs (b : writtenBlock) : Int :=
  match b.rows with
  | [] => 0
  | r :: _ => r.timestamp

/-- The (series identifier, first timestamp) order on written blocks: the
BlockDescriptor sort order of the spec. -/
def blockLe (b₁ b₂ : writtenBlock) : Prop :=
  b₁.sid < b₂.sid ∨ (b₁.sid = b₂.sid ∧ firstTs b₁ ≤ firstTs b₂)

instance (b₁ b₂ : writtenBlock) : Decidable (blockLe b₁ b₂) := by
  unfold blockLe; infer_instance

/- ------------------------------------------------------------------ -/
/- Definitions: flush to storage and reopen (banyand/stream/part.go)  -/
/- ------------------------------------------------------------------ -/

/-- Filename constants of banyand/stream/part.go. -/
def metadataFilename : String := "metadata.json"

def primaryFilename : String := "primary.bin"

def metaFilename : String := "meta.bin"

def timestampsFilename : String := "timestamps.bin"

def elementIndexFilename : String := "idx"

def tagFamiliesMetadataFilenameExt : String := ".tfm"

def tagFamiliesFilenameExt : String := ".tf"

/-- Modelled from the spec: `partMetadata` (SegmentMetadata) — identity and
summary statistics of one segment; the concrete Go struct is not among the
sources at hand. -/
structure partMetadata where
  ID : Nat
  BlocksCount : Nat
  TotalCount : Nat
  MinTimestamp : Int
  MaxTimestamp : Int
deriving Repr, DecidableEq

/-- One filesystem entry: a created directory, a data file holding verbatim
bytes, or the metadata record (`metadata.json`, written and re-read verbatim
per the spec's persistence contract). -/
inductive fentry where
  | dir
  | fileBytes (content : List Nat)
  | fileMeta (meta : partMetadata)
deriving Repr, DecidableEq

/-- Modelled from the spec: the filesystem collaborator.  Paths are component
lists (`filepath.Join` appends a component); `entries` maps paths to entries,
`syncs` records every `SyncPath` call and `hints` every file the cache-hint
utility was actually applied to. -/
structure GoFS where
  entries : List (List String × fentry)
  syncs : List (List String)
  hints : List (List String)
deriving Repr, DecidableEq

/-- Looks a path up in a filesystem entry list (first match). -/
def fsLookup : List (List String × fentry) → List String → Option fentry
  | [], _ => none
  | kv :: rest, p => if kv.1 = p then some kv.2 else fsLookup rest p

/-- `os.Stat` for `ApplyIfLarge`: the size of a data file, `none` when the
path is absent (only data files have an observable size in this model). -/
def statSize (entries : List (List String × fentry)) (p : List String) : Option Int :=
  match fsLookup entries p with
  | some (.fileBytes b) => some (b.length : Int)
  | _ => none

/-- `memPart` (banyand/stream/part.go): the in-memory segment — growable
byte buffers for the meta, primary and timestamps streams, one buffer pair
per tag family, and the part metadata. -/
structure memPart where
  meta : List Nat
  primary : List Nat
  timestamps : List Nat
  tagFamilies : List (String × List Nat)
  tagFamilyMetadata : List (String × List Nat)
  partMetadata : partMetadata
deriving Repr, DecidableEq

/-- The (name, entry) pairs `mustFlush` writes into the part directory, in
write order: the meta, primary and timestamps buffers, one data file per tag
family, one metadata file per tag family, and the metadata record. -/
def flushNames (mp : memPart) : List (String × fentry) :=
  [(metaFilename, .fileBytes mp.meta),
   (primaryFilename, .fileBytes mp.primary),
   (timestampsFilename, .fileBytes mp.timestamps)]
  ++ mp.tagFamilies.map
       (fun nb => (nb.1 ++ tagFamiliesFilenameExt, fentry.fileBytes nb.2))
  ++ mp.tagFamilyMetadata.map
       (fun nb => (nb.1 ++ tagFamiliesMetadataFilenameExt, fentry.fileBytes nb.2))
  ++ [(metadataFilename, fentry.fileMeta mp.partMetadata)]

/-- The files written by `mustFlush`, keyed by their full paths. -/
def flushWritten (mp : memPart) (path : List String) : List (List String × fentry) :=
  (flushNames mp).map (fun ne => (path ++ [ne.1], ne.2))

/-- The data-file paths `mustFlush` passes to `fadvis.ApplyIfLarge` after
the sync: primary, timestamps, and every tag-family data file. -/
def flushHintCandidates (mp : memPart) (path : List String) : List (List String) :=
  [path ++ [primaryFilename], path ++ [timestampsFilename]]
  ++ mp.tagFamilies.map (fun nb => path ++ [nb.1 ++ tagFamiliesFilenameExt])

/-- `memPart.mustFlush` (banyand/stream/part.go): creates the directory
(panicking — `none` — if it exists), skips everything else when the final
path component is the index subdirectory name, otherwise flushes the meta,
primary, timestamps and tag-family buffers, writes the metadata record,
syncs the directory and applies the cache hint to each large data file
(primary, timestamps, and every tag-family data file). -/
def mustFlush (threshold : Int) (fs : GoFS) (mp : memPart) (path : List String) : Option GoFS :=
  if (fsLookup fs.entries path).isSome then none
  else
    let fs1 : GoFS := { fs with entries := fs.entries ++ [(path, .dir)] }
    if path.getLast? = some elementIndexFilename then some fs1
    else
      let entries2 := fs1.entries ++ flushWritten mp path
      let fired := (flushHintCandidates mp path).filter
        (fun p => ApplyIfLarge threshold (statSize entries2 p))
      some { entries := entries2, syncs := fs1.syncs ++ [path], hints := fs1.hints ++ fired }

/-- Modelled from the spec: one BlockDescriptor as decoded from `meta.bin`.
The spec leaves the byte-level encoding of descriptors out of scope; this
model fixes a simple concrete record layout. -/
structure blockDesc where
  seriesID : Nat
  minTimestamp : Nat
  count : Nat
  offset : Nat
deriving Repr, DecidableEq

/-- Modelled from the spec: `mustReadPrimaryBlockMetadata` decodes the
BlockDescriptor array from the meta stream bytes (four bytes per record in
this model's layout; the reopen contract depends only on the bytes being
preserved verbatim). -/
def mustReadPrimaryBlockMetadata : List Nat → List blockDesc
  | a :: b :: c :: d :: rest => ⟨a, b, c, d⟩ :: mustReadPrimaryBlockMetadata rest
  | _ => []

/-- Generic association-list lookup keyed by name (a Go map read). -/
def assocLookup {α : Type} : List (String × α) → String → Option α
  | [], _ => none
  | kv :: rest, name => if kv.1 = name then some kv.2 else assocLookup rest name

/-- `part` (banyand/stream/part.go): the readable segment.  Readers over
column files are represented by the byte content they read. -/
structure part where
  primary : List Nat
  timestamps : List Nat
  tagFamilyMetadata : List (String × List Nat)
  tagFamilies : List (String × List Nat)
  path : List String
  primaryBlockMetadata : List blockDesc
  partMetadata : partMetadata
deriving Repr, DecidableEq

/-- `openMemPart` (banyand/stream/part.go): opens the in-memory segment for
reading — copies the part metadata, decodes the descriptor array from the
meta buffer and exposes the buffers as readers. -/
def openMemPart (mp : memPart) : part :=
  { partMetadata := mp.partMetadata
    primaryBlockMetadata := mustReadPrimaryBlockMetadata mp.meta
    primary := mp.primary
    timestamps := mp.timestamps
    tagFamilies := mp.tagFamilies
    tagFamilyMetadata := mp.tagFamilies.map
      (fun nb => (nb.1, (assocLookup mp.tagFamilyMetadata nb.1).getD []))
    path := [] }

/-- `partName` (banyand/stream/part.go): `fmt.Sprintf("%016x", epoch)` — the
epoch in lowercase hexadecimal, zero-padded to 16 characters. -/
def partName (epoch : Nat) : String :=
  let digits := Nat.toDigits 16 epoch
  String.mk (List.replicate (16 - digits.length) '0' ++ digits)

/-- `partPath` (banyand/stream/part.go): root joined with the part name. -/
def partPath (root : List String) (epoch : Nat) : List String :=
  root ++ [partName epoch]

/-- `filepath.Ext`: the suffix of the name starting at its final dot, empty
when the name has no dot. -/
def extName (name : String) : String :=
  let rev := name.toList.reverse
  let afterDot := rev.takeWhile (fun c => c ≠ '.')
  if afterDot.length = rev.length then "" else String.mk ('.' :: afterDot.reverse)

/-- `removeExt` (banyand/stream/part.go): drops the extension suffix —
`nameWithExt[:len(nameWithExt)-len(ext)]`. -/
def removeExt (nameWithExt ext : String) : String :=
  String.mk (nameWithExt.toList.take (nameWithExt.length - ext.length))

/-- `fileSystem.ReadDir`: the direct children of `dir`, as (name, entry)
pairs in filesystem order. -/
def readDir (entries : List (List String × fentry)) (dir : List String) :
    List (String × fentry) :=
  entries.filterMap (fun kv =>
    if kv.1.dropLast = dir then kv.1.getLast?.map (fun n => (n, kv.2)) else none)

/-- Reads a data file's bytes, `none` when absent or not a data file
(`mustOpenReader` panics in that case). -/
def mustOpenReader (entries : List (List String × fentry)) (p : List String) :
    Option (List Nat) :=
  match fsLookup entries p with
  | some (.fileBytes b) => some b
  | _ => none

/-- `mustOpenFilePart` (banyand/stream/part.go): derives the part directory
from the numeric ID, reads the metadata record (fatal when missing),
overrides its ID, decodes the descriptor array from `meta.bin`, opens the
primary and timestamps readers, and scans the directory for tag-family
files by extension, building the name-to-reader maps. -/
def mustOpenFilePart (id : Nat) (root : List String) (fs : GoFS) : Option part :=
  let pp := partPath root id
  match fsLookup fs.entries (pp ++ [metadataFilename]) with
  | some (.fileMeta pm) =>
    match mustOpenReader fs.entries (pp ++ [metaFilename]) with
    | some metaBytes =>
      match mustOpenReader fs.entries (pp ++ [primaryFilename]),
            mustOpenReader fs.entries (pp ++ [timestampsFilename]) with
      | some primaryBytes, some timestampsBytes =>
        let ee := readDir fs.entries pp
        let tfm := ee.filterMap (fun ne =>
          match ne.2 with
          | .fileBytes b =>
            if extName ne.1 = tagFamiliesMetadataFilenameExt then
              some (removeExt ne.1 tagFamiliesMetadataFilenameExt, b)
            else none
          | _ => none)
        let tf := ee.filterMap (fun ne =>
          match ne.2 with
          | .fileBytes b =>
            if extName ne.1 = tagFamiliesFilenameExt then
              some (removeExt ne.1 tagFamiliesFilenameExt, b)
            else none
          | _ => none)
        some { partMetadata := { pm with ID := id }
               primaryBlockMetadata := mustReadPrimaryBlockMetadata metaBytes
               primary := primaryBytes
               timestamps := timestampsBytes
               tagFamilies := tf
               tagFamilyMetadata := tfm
               path := pp }
      | _, _ => none
    | none => none
  | _ => none

/- ------------------------------------------------------------------ -/
/- Definitions: k-way merge reader (banyand/measure/block_reader.go)  -/
/- ------------------------------------------------------------------ -/

/-- The sort key of one block's metadata: series identifier and minimum
timestamp (the fields the merge orders by). -/
structure blockMetadata where
  seriesID : Nat
  minTimestamp : Int
deriving Repr, DecidableEq

/-- Modelled from the spec: the heap comparison of `partMergeIterHeap.Less`
— strictly less by (series identifier, minimum timestamp). -/
def bmLess (x y : blockMetadata) : Bool :=
  x.seriesID < y.seriesID || (x.seriesID == y.seriesID && x.minTimestamp < y.minTimestamp)

/-- The (series identifier, minimum timestamp) order as a proposition. -/
def bmLe (x y : blockMetadata) : Prop :=
  x.seriesID < y.seriesID ∨ (x.seriesID = y.seriesID ∧ x.minTimestamp ≤ y.minTimestamp)

instance (x y : blockMetadata) : Decidable (bmLe x y) := by
  unfold bmLe; infer_instance

/-- Modelled from the spec: one per-segment iterator (`partMergeIter`).
`block` is the current block's metadata (meaningful after a successful
advance), `pending` the blocks not yet yielded, and `errOnExhaust` the error
its advance reports once `pending` is drained (`none` is clean end of
stream). -/
structure partMergeIter where
  block : blockMetadata
  pending : List blockMetadata
  errOnExhaust : Option String
deriving Repr, DecidableEq

/-- Modelled from the spec: `partMergeIter.nextBlockMetadata` — advance to
the next block descriptor, reporting whether one was produced. -/
def pmNextBlockMetadata (it : partMergeIter) : Bool × partMergeIter :=
  match it.pending with
  | b :: rest => (true, { it with block := b, pending := rest })
  | [] => (false, it)

/-- Modelled from the spec: `partMergeIter.error` — the advance failure, if
any, once the iterator reports no further block (`nil` on clean end). -/
def pmError (it : partMergeIter) : Option String := it.errOnExhaust

/-- A freshly opened per-segment iterator over a block sequence: nothing
yielded yet, clean end of stream. -/
def freshIter (blocks : List blockMetadata) : partMergeIter :=
  { block := ⟨0, 0⟩, pending := blocks, errOnExhaust := none }

/-- The live iterator obtained from a fresh one over `blocks` after the
first successful advance of `blockReader.init`: the head block becomes
current, the tail stays pending (`none` when the sequence is empty and the
iterator is dropped by `init`). -/
def seedIter : List blockMetadata → Option partMergeIter
  | [] => none
  | b :: r => some { block := b, pending := r, errOnExhaust := none }

/-- Modelled from the spec: the min-priority queue of `container/heap` over
the per-segment iterators.  The spec admits any priority structure keyed by
(series identifier, timestamp) that preserves the pop/advance/reinsert
protocol; the queue is modelled as the list of iterators, and `pqExtract`
returns a minimal iterator together with the remaining ones. -/
def pqExtract (x : partMergeIter) : List partMergeIter → partMergeIter × List partMergeIter
  | [] => (x, [])
  | y :: ys =>
    if bmLess y.block x.block then
      let mr := pqExtract y ys
      (mr.1, x :: mr.2)
    else
      let mr := pqExtract x ys
      (mr.1, y :: mr.2)

/-- The queue's root (`br.pih[0]` after `heap.Init`/`heap.Fix`): a minimal
iterator, or `none` when the queue is empty. -/
def pqRoot : List partMergeIter → Option partMergeIter
  | [] => none
  | x :: xs => some (pqExtract x xs).1

/-- The merge reader's error state: `io.EOF`, a raw iterator error as
returned by `blockReader.nextMetadata` before wrapping, or the wrapped form
`fmt.Errorf("can't get the block to merge: %w", err)`. -/
inductive mergeErr where
  | eof
  | iterRaw (msg : String)
  | wrapped (msg : String)
deriving Repr, DecidableEq

/-- `blockReader` (banyand/measure/block_reader.go): error state, current
block, the iterator queue and the `nextBlockNoop` flag set by `init`. -/
structure blockReader where
  err : Option mergeErr
  block : Option blockMetadata
  pih : List partMergeIter
  nextBlockNoop : Bool
deriving Repr, DecidableEq

/-- The loop of `blockReader.init`: advances every iterator once, keeps the
ones that produced a block, skips the cleanly exhausted ones, and stops with
the first iterator error. -/
def initIters (acc : List partMergeIter) :
    List partMergeIter → List partMergeIter × Option String
  | [] => (acc, none)
  | it :: rest =>
    let r := pmNextBlockMetadata it
    if r.1 then initIters (acc ++ [r.2]) rest
    else
      match pmError r.2 with
      | some e => (acc, some e)
      | none => initIters acc rest

/-- `blockReader.init` (banyand/measure/block_reader.go): resets the reader,
advances every iterator once, fails on an iterator error, reports `io.EOF`
when no iterator produced a block, otherwise heapifies the queue, exposes
the root's block and arms `nextBlockNoop`. -/
def blockReaderInit (pii : List partMergeIter) : blockReader :=
  let r := initIters [] pii
  match r.2 with
  | some e => { err := some (.wrapped e), block := none, pih := [], nextBlockNoop := false }
  | none =>
    if r.1 = [] then { err := some .eof, block := none, pih := [], nextBlockNoop := false }
    else
      { err := none, block := (pqRoot r.1).map (fun it => it.block),
        pih := r.1, nextBlockNoop := true }

/-- `blockReader.nextMetadata` (banyand/measure/block_reader.go): advances
the queue's root iterator; on success re-sites it (`heap.Fix`) and exposes
the new root's block; on an iterator error reports it raw; on clean
exhaustion pops the iterator (`heap.Pop`), reporting `io.EOF` when the queue
empties. -/
def brNextMetadata (br : blockReader) : blockReader :=
  match br.pih with
  | [] => { br with block := none, err := some .eof }
  | x :: xs =>
    let hr := pqExtract x xs
    let adv := pmNextBlockMetadata hr.1
    if adv.1 then
      let pih := adv.2 :: hr.2
      { br with pih := pih, block := (pqRoot pih).map (fun it => it.block), err := none }
    else
      match pmError adv.2 with
      | some e => { br with block := none, err := some (.iterRaw e) }
      | none =>
        match hr.2 with
        | [] => { br with pih := [], block := none, err := some .eof }
        | z :: zs =>
          let blk := (pqRoot (z :: zs)).map (fun it => it.block)
          { br with pih := z :: zs, block := blk, err := none }

/-- `blockReader.nextBlockMetadata` (banyand/measure/block_reader.go):
returns false while an error is pending, consumes the post-`init` noop,
otherwise advances via `nextMetadata`, passing `io.EOF` through and wrapping
any iterator error. -/
def brNextBlockMetadata (br : blockReader) : Bool × blockReader :=
  if br.err.isSome then (false, br)
  else if br.nextBlockNoop then (true, { br with nextBlockNoop := false })
  else
    let br1 := brNextMetadata br
    match br1.err with
    | none => (true, br1)
    | some .eof => (false, br1)
    | some (.iterRaw e) => (false, { br1 with err := some (.wrapped e) })
    | some (.wrapped _) => (false, br1)

/-- `blockReader.error` (banyand/measure/block_reader.go): `io.EOF` is the
clean end of stream and reads as no error. -/
def blockReaderError (br : blockReader) : Option mergeErr :=
  match br.err with
  | some .eof => none
  | e => e

/-- Size of the pending work in a reader state: total queued blocks plus one
per live iterator plus the armed noop.  Strictly decreases on every
successful `nextBlockMetadata`. -/
def brMeasure (br : blockReader) : Nat :=
  (br.pih.map (fun it => it.pending.length + 1)).sum + (if br.nextBlockNoop then 1 else 0)

/-- The emitted block-metadata sequence of repeated `nextBlockMetadata`
calls, fuelled (the fuel is internal; `brEmit` supplies enough for the whole
run). -/
def brEmitFuel : Nat → blockReader → List blockMetadata
  | 0, _ => []
  | fuel + 1, br =>
    let r := brNextBlockMetadata br
    if r.1 then r.2.block.toList ++ brEmitFuel fuel r.2 else []

/-- The sequence of blocks the merge emits: repeated `nextBlockMetadata`
until it returns false, reading the current block after each success. -/
def brEmit (br : blockReader) : List blockMetadata :=
  brEmitFuel (brMeasure br + 1) br

/-- The reader state at which `nextBlockMetadata` first returns false,
fuelled like `brEmitFuel`. -/
def brFinalFuel : Nat → blockReader → blockReader
  | 0, br => br
  | fuel + 1, br =>
    let r := brNextBlockMetadata br
    if r.1 then brFinalFuel fuel r.2 else r.2

/-- The reader state after the merge has stopped. -/
def brFinal (br : blockReader) : blockReader :=
  brFinalFuel (brMeasure br + 1) br

/-- All blocks a live iterator still holds: its current block followed by
the pending ones. -/
def itBlocks (it : partMergeIter) : List blockMetadata := it.block :: it.pending

/- ------------------------------------------------------------------ -/
/- Theorems                                                           -/
/- ------------------------------------------------------------------ -/

/- Helper lemmas: HashIntersect -/

theorem hashIntersect_mem (a b : List Nat) (x : Nat) :
    x ∈ HashIntersect a b ↔ x ∈ a ∧ x ∈ b := by
  unfold HashIntersect
  by_cases h : a = [] ∨ b = []
  · simp only [if_pos h]
    rcases h with h | h <;> subst h <;> simp
  · simp only [if_neg h, List.mem_filter, decide_eq_true_eq]
    tauto

/-- C8: the threshold registry — `SetThreshold` with a non-positive value is
a no-op, a positive value round-trips through `GetThreshold`, and
`ApplyIfLarge` fires exactly on sizes strictly above the threshold: not at
the threshold itself, but one byte above it. -/
theorem fadvis_threshold_spec (cur v sz : Int) :
    (v ≤ 0 → SetThreshold cur v = cur) ∧
    (0 < v → GetThreshold (SetThreshold cur v) = v) ∧
    (ApplyIfLarge cur (some sz) = true ↔ cur < sz) ∧
    ApplyIfLarge cur (some cur) = false ∧
    ApplyIfLarge cur (some (cur + 1)) = true := by
  refine ⟨fun h => ?_, fun h => ?_, ?_, ?_, ?_⟩
  · simp [SetThreshold, not_lt.mpr h]
  · simp [SetThreshold, GetThreshold, h]
  · simp [ApplyIfLarge]
  · simp [ApplyIfLarge]
  · simp [ApplyIfLarge]

/-- C8 witness: `setThreshold(0)` and `setThreshold(-5)` keep 64 MiB,
`setThreshold(33554432)` round-trips, and a file of exactly the threshold
size does not trigger the hint while one byte more does. -/
theorem fadvis_threshold_spec_witness :
    (SetThreshold 67108864 0 = 67108864) ∧
    (SetThreshold 67108864 (-5) = 67108864) ∧
    (GetThreshold (SetThreshold 67108864 33554432) = 33554432) ∧
    ApplyIfLarge 33554432 (some 33554432) = false ∧
    ApplyIfLarge 33554432 (some 33554433) = true :=
  ⟨(fadvis_threshold_spec 67108864 0 0).1 (by decide),
   (fadvis_threshold_spec 67108864 (-5) 0).1 (by decide),
   (fadvis_threshold_spec 67108864 33554432 0).2.1 (by decide),
   (fadvis_threshold_spec 33554432 0 0).2.2.2.1,
   (fadvis_threshold_spec 33554432 0 0).2.2.2.2⟩

/-- C9 counterexample: `HashIntersect` is not duplicate-free — with receiver
`[1]` and argument `[1, 1]` the result is `[1, 1]`, one entry per occurrence
in the second operand. -/
theorem hashIntersect_counterexample :
    HashIntersect [1] [1, 1] = [1, 1] ∧ ¬ (HashIntersect [1] [1, 1]).Nodup := by
  decide

/-- C9 (amended): `HashIntersect` contains exactly the identifiers present
in both inputs, is the empty collection when either input is empty, and is
commutative up to membership; each common identifier appears once per
occurrence in the second operand (so duplicates in the second operand are
kept, not deduplicated). -/
theorem hashIntersect_spec (a b : List Nat) :
    (∀ x, x ∈ HashIntersect a b ↔ x ∈ a ∧ x ∈ b) ∧
    (a = [] ∨ b = [] → HashIntersect a b = []) ∧
    (∀ x, x ∈ HashIntersect a b ↔ x ∈ HashIntersect b a) ∧
    (∀ x, (HashIntersect a b).count x = if x ∈ a then b.count x else 0) := by
  refine ⟨hashIntersect_mem a b, fun h => ?_, fun x => ?_, fun x => ?_⟩
  · unfold HashIntersect
    simp [if_pos h]
  · rw [hashIntersect_mem, hashIntersect_mem]
    tauto
  · unfold HashIntersect
    by_cases h : a = [] ∨ b = []
    · simp only [if_pos h]
      rcases h with h | h <;> subst h <;> simp
    · simp only [if_neg h]
      by_cases hx : x ∈ a
      · rw [if_pos hx, List.count_filter (by simpa using hx)]
      · rw [if_neg hx, List.count_eq_zero]
        simp [List.mem_filter, hx]

/-- C10: `seqReader.mustReadFull` at a cleanly exhausted stream (zero bytes
available, non-empty request) returns silently with the destination
unfilled and `bytesRead` unchanged, while a partial read (some but not all
requested bytes available) panics. -/
theorem seqReader_mustReadFull_eof_silent (s data : List Nat) (br : Nat) :
    (s = [] → 0 < data.length →
      mustReadFull ⟨s, br⟩ data = some (⟨s, br⟩, data)) ∧
    (0 < s.length → s.length < data.length →
      mustReadFull ⟨s, br⟩ data = none) := by
  constructor
  · intro hs hd
    subst hs
    unfold mustReadFull ioReadFull
    simp [Nat.not_le.mpr hd]
  · intro h1 h2
    unfold mustReadFull ioReadFull
    simp [Nat.not_le.mpr h2, List.ne_nil_of_length_pos h1]

/-- C10 witness: a two-byte request against an empty stream returns silently
with the buffer unfilled and the counter unchanged; against a one-byte
stream it panics. -/
theorem seqReader_mustReadFull_witness :
    mustReadFull ⟨[], 3⟩ [7, 7] = some (⟨[], 3⟩, [7, 7]) ∧
    mustReadFull ⟨[5], 3⟩ [7, 7] = none :=
  ⟨(seqReader_mustReadFull_eof_silent [] [7, 7] 3).1 rfl (by decide),
   (seqReader_mustReadFull_eof_silent [5] [7, 7] 3).2 (by decide) (by decide)⟩

/-- C7 counterexample: flushing to a path whose final component is `idx`
still creates the directory itself — the `MkdirPanicIfExist` call precedes
the index-directory check — so something *is* created on disk for that
path. -/
theorem mustFlush_idx_counterexample :
    mustFlush 64 ⟨[], [], []⟩ ⟨[], [], [], [], [], ⟨0, 0, 0, 0, 0⟩⟩ ["seg", "idx"] =
      some ⟨[(["seg", "idx"], .dir)], [], []⟩ ∧
    mustFlush 64 ⟨[], [], []⟩ ⟨[], [], [], [], [], ⟨0, 0, 0, 0, 0⟩⟩ ["seg", "idx"] ≠
      some ⟨[], [], []⟩ := by
  constructor
  · decide
  · decide

/-- C7 (amended): flushing a memory part to a fresh path whose final
component is the index subdirectory name creates the directory and then
skips the rest of the flush routine entirely: no data files, no metadata
record, no directory sync and no cache hints. -/
theorem mustFlush_idx_skips (th : Int) (fs : GoFS) (mp : memPart) (path : List String)
    (hfree : fsLookup fs.entries path = none)
    (hidx : path.getLast? = some elementIndexFilename) :
    mustFlush th fs mp path = some { fs with entries := fs.entries ++ [(path, .dir)] } := by
  unfold mustFlush
  simp [hfree, hidx]

/-- C7 witness: the amended statement at a concrete flush of an `idx`
target. -/
theorem mustFlush_idx_skips_witness :
    mustFlush 64 ⟨[(["other"], .dir)], [], []⟩ ⟨[1], [2], [3], [("f", [4])], [("f", [5])], ⟨9, 1, 1, 0, 0⟩⟩
        ["seg", "idx"] =
      some ⟨[(["other"], .dir), (["seg", "idx"], .dir)], [], []⟩ :=
  mustFlush_idx_skips 64 ⟨[(["other"], .dir)], [], []⟩
    ⟨[1], [2], [3], [("f", [4])], [("f", [5])], ⟨9, 1, 1, 0, 0⟩⟩ ["seg", "idx"]
    (by decide) (by decide)

/- Helper lemmas: partWrapper lifecycle -/

theorem decCount_nil : decCount [] = 0 := rfl

theorem incCount_nil : incCount [] = 0 := rfl

theorem decCount_cons (op : refOp) (ops : List refOp) :
    decCount (op :: ops) = (if op = refOp.dec then 1 else 0) + decCount ops := by
  cases op <;> simp [decCount, List.countP_cons, Nat.add_comm]

theorem incCount_cons (op : refOp) (ops : List refOp) :
    incCount (op :: ops) = (if op = refOp.inc then 1 else 0) + incCount ops := by
  cases op <;> simp [incCount, List.countP_cons, Nat.add_comm]

/-- While every prefix of the call sequence keeps the reference count
positive, `runRefOps` only moves the counter: no cleanup effect runs and no
flag changes. -/
theorem runRefOps_no_cleanup (s : List refOp) : ∀ pw : partWrapper,
    1 ≤ pw.ref →
    (∀ p, p <+: s → (decCount p : Int) < incCount p + pw.ref) →
    runRefOps pw s = { pw with ref := pw.ref + incCount s - decCount s } := by
  induction s with
  | nil =>
    intro pw _ _
    simp [runRefOps, decCount_nil, incCount_nil]
  | cons op rest ih =>
    intro pw h1 h2
    cases op with
    | inc =>
      have step : runRefOps pw (refOp.inc :: rest) = runRefOps (incRef pw) rest := rfl
      rw [step, ih (incRef pw) (by simp [incRef]; omega) ?_]
      · simp only [incRef]
        congr 1
        rw [incCount_cons, decCount_cons]
        simp
        omega
      · intro p hp
        have := h2 (refOp.inc :: p) (by obtain ⟨t, ht⟩ := hp; exact ⟨t, by simp [ht]⟩)
        rw [incCount_cons, decCount_cons] at this
        simp [incRef] at this ⊢
        omega
    | dec =>
      have hone := h2 [refOp.dec] ⟨rest, rfl⟩
      rw [decCount_cons, incCount_cons] at hone
      simp [decCount_nil, incCount_nil] at hone
      have h2ref : 2 ≤ pw.ref := by omega
      have step : runRefOps pw (refOp.dec :: rest) = runRefOps (decRef pw) rest := rfl
      have hdec : decRef pw = { pw with ref := pw.ref - 1 } := by
        unfold decRef
        rw [if_pos (by omega)]
      rw [step, hdec, ih _ (by simp; omega) ?_]
      · simp only []
        congr 1
        rw [incCount_cons, decCount_cons]
        simp
        omega
      · intro p hp
        have := h2 (refOp.dec :: p) (by obtain ⟨t, ht⟩ := hp; exact ⟨t, by simp [ht]⟩)
        rw [incCount_cons, decCount_cons] at this
        simp at this ⊢
        omega

/-- C4: for every balanced `incRef`/`decRef` sequence on a freshly created
wrapper (each prefix releases no more than it acquired, final counts equal)
followed by the release of the creation reference, the count returns to 1
after the balanced part and reaches 0 at the final release, where exactly
one cleanup action fires: the memory part is returned to the pool for a
memory-backed wrapper; the streams are closed — and directory deletion is
scheduled exactly when the wrapper is removable with a filesystem — for a
file-backed one. -/
theorem partWrapper_balanced_lifecycle (hasMp removable hasFS : Bool) (s : List refOp)
    (hpre : ∀ p, p <+: s → decCount p ≤ incCount p)
    (hbal : decCount s = incCount s) :
    (runRefOps (newPartWrapper hasMp removable hasFS) s).ref = 1 ∧
    (runRefOps (newPartWrapper hasMp removable hasFS) s).memReleased = 0 ∧
    (runRefOps (newPartWrapper hasMp removable hasFS) s).closed = 0 ∧
    (runRefOps (newPartWrapper hasMp removable hasFS) s).removeScheduled = 0 ∧
    (runRefOps (newPartWrapper hasMp removable hasFS) (s ++ [refOp.dec])).ref = 0 ∧
    (runRefOps (newPartWrapper hasMp removable hasFS) (s ++ [refOp.dec])).memReleased +
      (runRefOps (newPartWrapper hasMp removable hasFS) (s ++ [refOp.dec])).closed = 1 ∧
    (hasMp = true →
      (runRefOps (newPartWrapper hasMp removable hasFS) (s ++ [refOp.dec])).memReleased = 1 ∧
      (runRefOps (newPartWrapper hasMp removable hasFS) (s ++ [refOp.dec])).closed = 0 ∧
      (runRefOps (newPartWrapper hasMp removable hasFS) (s ++ [refOp.dec])).removeScheduled = 0) ∧
    (hasMp = false →
      (runRefOps (newPartWrapper hasMp removable hasFS) (s ++ [refOp.dec])).closed = 1 ∧
      (runRefOps (newPartWrapper hasMp removable hasFS) (s ++ [refOp.dec])).memReleased = 0 ∧
      (runRefOps (newPartWrapper hasMp removable hasFS) (s ++ [refOp.dec])).removeScheduled =
        (if removable && hasFS then 1 else 0)) := by
  have hmid : runRefOps (newPartWrapper hasMp removable hasFS) s =
      { newPartWrapper hasMp removable hasFS with
        ref := 1 + incCount s - decCount s } := by
    apply runRefOps_no_cleanup
    · simp [newPartWrapper]
    · intro p hp
      have := hpre p hp
      simp [newPartWrapper]
      omega
  have href1 : (runRefOps (newPartWrapper hasMp removable hasFS) s).ref = 1 := by
    rw [hmid]
    simp [newPartWrapper]
    omega
  have hfin : runRefOps (newPartWrapper hasMp removable hasFS) (s ++ [refOp.dec]) =
      decRef (runRefOps (newPartWrapper hasMp removable hasFS) s) := by
    unfold runRefOps
    rw [List.foldl_append]
    rfl
  rw [hfin, hmid]
  rw [hmid] at href1
  simp [newPartWrapper] at href1 ⊢
  unfold decRef
  rw [href1]
  cases hasMp with
  | true => simp
  | false => simp

/-- C4 witness: one balanced acquire/release pair followed by the creation
release on a removable file-backed wrapper — the count returns to 1 after
the pair, and the final release closes the part once and schedules exactly
one background deletion. -/
theorem partWrapper_balanced_lifecycle_witness :
    (runRefOps (newPartWrapper false true true) [refOp.inc, refOp.dec]).ref = 1 ∧
    (runRefOps (newPartWrapper false true true)
        ([refOp.inc, refOp.dec] ++ [refOp.dec])).ref = 0 ∧
    (runRefOps (newPartWrapper false true true)
        ([refOp.inc, refOp.dec] ++ [refOp.dec])).closed = 1 ∧
    (runRefOps (newPartWrapper false true true)
        ([refOp.inc, refOp.dec] ++ [refOp.dec])).memReleased = 0 ∧
    (runRefOps (newPartWrapper false true true)
        ([refOp.inc, refOp.dec] ++ [refOp.dec])).removeScheduled = 1 := by
  have hpre : ∀ p, p <+: [refOp.inc, refOp.dec] → decCount p ≤ incCount p := by
    intro p hp
    obtain ⟨t, ht⟩ := hp
    match p, t, ht with
    | [], _, _ => decide
    | [refOp.inc], _, _ => decide
    | [refOp.inc, refOp.dec], _, _ => decide
  have h := partWrapper_balanced_lifecycle false true true [refOp.inc, refOp.dec]
    hpre (by decide)
  refine ⟨h.1, h.2.2.2.2.1, ?_, ?_, ?_⟩
  · exact (h.2.2.2.2.2.2.2 rfl).1
  · exact (h.2.2.2.2.2.2.2 rfl).2.1
  · have := (h.2.2.2.2.2.2.2 rfl).2.2
    simpa using this
/- Helper lemmas: the elements order and the modelled sort -/

theorem elementsLe_true_iff (x y : element) : elementsLe x y = true ↔ elLe x y := by
  unfold elementsLe elLe
  simp

theorem elLe_total (x y : element) : elLe x y ∨ elLe y x := by
  unfold elLe
  omega

theorem elLe_trans {x y z : element} (h1 : elLe x y) (h2 : elLe y z) : elLe x z := by
  unfold elLe at h1 h2 ⊢
  omega

theorem elementsLe_false (x y : element) (h : elementsLe x y = false) : elLe y x := by
  rcases elLe_total x y with h1 | h1
  · rw [← elementsLe_true_iff] at h1
    rw [h] at h1
    cases h1
  · exact h1

theorem insertSorted_perm (e : element) (l : List element) :
    (insertSorted e l).Perm (e :: l) := by
  induction l with
  | nil => simp [insertSorted]
  | cons x xs ih =>
    unfold insertSorted
    split
    · exact List.Perm.refl _
    · exact (ih.cons x).trans (List.Perm.swap e x xs)

theorem insertSorted_pairwise (e : element) (l : List element)
    (h : List.Pairwise elLe l) : List.Pairwise elLe (insertSorted e l) := by
  induction l with
  | nil => simp [insertSorted]
  | cons x xs ih =>
    unfold insertSorted
    rw [List.pairwise_cons] at h
    split
    · rename_i hle
      rw [elementsLe_true_iff] at hle
      rw [List.pairwise_cons]
      refine ⟨?_, List.pairwise_cons.mpr h⟩
      intro y hy
      rcases List.mem_cons.mp hy with hy1 | hy1
      · rw [hy1]
        exact hle
      · exact elLe_trans hle (h.1 y hy1)
    · rename_i hle
      rw [Bool.not_eq_true] at hle
      have hxe := elementsLe_false e x hle
      rw [List.pairwise_cons]
      refine ⟨?_, ih h.2⟩
      intro y hy
      have hmem : y ∈ e :: xs := (insertSorted_perm e xs).mem_iff.mp hy
      rcases List.mem_cons.mp hmem with hy1 | hy1
      · rw [hy1]
        exact hxe
      · exact h.1 y hy1

theorem sortElements_perm (es : List element) : (sortElements es).Perm es := by
  induction es with
  | nil => simp [sortElements]
  | cons e rest ih =>
    unfold sortElements
    exact (insertSorted_perm e (sortElements rest)).trans (ih.cons e)

theorem sortElements_pairwise (es : List element) :
    List.Pairwise elLe (sortElements es) := by
  induction es with
  | nil => simp [sortElements]
  | cons e rest ih => exact insertSorted_pairwise e _ ih

theorem sortElements_ne_nil (es : List element) (h : es ≠ []) :
    sortElements es ≠ [] := by
  intro hc
  apply h
  have hlen := (sortElements_perm es).length_eq
  rw [hc] at hlen
  exact List.eq_nil_of_length_eq_zero hlen.symm

/- Helper lemmas: sizeSum -/

theorem sizeSum_nil : sizeSum [] = 0 := rfl

theorem sizeSum_cons (e : element) (l : List element) :
    sizeSum (e :: l) = uncompressedElementSizeBytes e + sizeSum l := by
  simp [sizeSum]

theorem sizeSum_append (a b : List element) :
    sizeSum (a ++ b) = sizeSum a + sizeSum b := by
  simp [sizeSum]

theorem sizeSum_reverse (l : List element) : sizeSum l.reverse = sizeSum l := by
  simp [sizeSum, List.sum_reverse]

theorem sizeSum_perm {a b : List element} (h : a.Perm b) : sizeSum a = sizeSum b := by
  unfold sizeSum
  exact (h.map uncompressedElementSizeBytes).sum_eq

theorem sizeSum_take_le (i : Nat) (l : List element) : sizeSum (l.take i) ≤ sizeSum l := by
  conv_rhs => rw [← List.take_append_drop i l]
  rw [sizeSum_append]
  omega

/- Helper lemmas: unfolding equations of the partitioning loop -/

theorem initLoop_nil_eq (m sp sz : Nat) (cur : List element) :
    initLoop m [] sp sz cur = [⟨sp, cur.reverse⟩] := rfl

theorem initLoop_cons_eq (m : Nat) (e : element) (rest : List element)
    (sp sz : Nat) (cur : List element) :
    initLoop m (e :: rest) sp sz cur =
      if sz ≥ m ∨ e.seriesID ≠ (if sp = 0 then e.seriesID else sp) then
        ⟨(if sp = 0 then e.seriesID else sp), cur.reverse⟩ ::
          initLoop m rest e.seriesID (uncompressedElementSizeBytes e) [e]
      else
        initLoop m rest (if sp = 0 then e.seriesID else sp)
          (sz + uncompressedElementSizeBytes e) (e :: cur) := by
  simp only [initLoop, Bool.or_eq_true, decide_eq_true_eq, bne_iff_ne, ne_eq, beq_iff_eq]

theorem initLoop_cons_boundary (m : Nat) (e : element) (rest : List element)
    (sp sz : Nat) (cur : List element) (hsp : sp ≠ 0) (h : sz ≥ m ∨ e.seriesID ≠ sp) :
    initLoop m (e :: rest) sp sz cur =
      ⟨sp, cur.reverse⟩ ::
        initLoop m rest e.seriesID (uncompressedElementSizeBytes e) [e] := by
  rw [initLoop_cons_eq]
  rw [if_neg hsp, if_pos h]

theorem initLoop_cons_go (m : Nat) (e : element) (rest : List element)
    (sp sz : Nat) (cur : List element) (hsp : sp ≠ 0) (hsz : ¬ sz ≥ m)
    (hsid : e.seriesID = sp) :
    initLoop m (e :: rest) sp sz cur =
      initLoop m rest sp (sz + uncompressedElementSizeBytes e) (e :: cur) := by
  rw [initLoop_cons_eq]
  rw [if_neg hsp, if_neg (by tauto)]

theorem initLoop_cons_zero (m : Nat) (e : element) (rest : List element)
    (sz : Nat) (cur : List element) (hsz : ¬ sz ≥ m) :
    initLoop m (e :: rest) 0 sz cur =
      initLoop m rest e.seriesID (sz + uncompressedElementSizeBytes e) (e :: cur) := by
  rw [initLoop_cons_eq]
  rw [if_pos rfl, if_neg (by tauto)]

theorem initLoop_cons_zero_boundary (m : Nat) (e : element) (rest : List element)
    (sz : Nat) (cur : List element) (hsz : sz ≥ m) :
    initLoop m (e :: rest) 0 sz cur =
      ⟨e.seriesID, cur.reverse⟩ ::
        initLoop m rest e.seriesID (uncompressedElementSizeBytes e) [e] := by
  rw [initLoop_cons_eq]
  simp [hsz]

/- Helper lemmas: invariants of the partitioning loop -/

theorem initLoop_join (m : Nat) (es : List element) : ∀ sp sz cur,
    (initLoop m es sp sz cur).flatMap writtenBlock.rows = cur.reverse ++ es := by
  induction es with
  | nil =>
    intro sp sz cur
    rw [initLoop_nil_eq]
    simp
  | cons e rest ih =>
    intro sp sz cur
    by_cases hsp : sp = 0
    · subst hsp
      by_cases hsz : sz ≥ m
      · rw [initLoop_cons_zero_boundary m e rest sz cur hsz, List.flatMap_cons, ih]
        simp
      · rw [initLoop_cons_zero m e rest sz cur hsz, ih]
        simp
    · by_cases hb : sz ≥ m ∨ e.seriesID ≠ sp
      · rw [initLoop_cons_boundary m e rest sp sz cur hsp hb, List.flatMap_cons, ih]
        simp
      · push_neg at hb
        rw [initLoop_cons_go m e rest sp sz cur hsp (by omega) hb.2, ih]
        simp

theorem initLoop_length_pos (m : Nat) (es : List element) : ∀ sp sz cur,
    0 < (initLoop m es sp sz cur).length := by
  induction es with
  | nil =>
    intro sp sz cur
    rw [initLoop_nil_eq]
    simp
  | cons e rest ih =>
    intro sp sz cur
    by_cases hsp : sp = 0
    · subst hsp
      by_cases hsz : sz ≥ m
      · rw [initLoop_cons_zero_boundary m e rest sz cur hsz]
        simp
      · rw [initLoop_cons_zero m e rest sz cur hsz]
        exact ih _ _ _
    · by_cases hb : sz ≥ m ∨ e.seriesID ≠ sp
      · rw [initLoop_cons_boundary m e rest sp sz cur hsp hb]
        simp
      · push_neg at hb
        rw [initLoop_cons_go m e rest sp sz cur hsp (by omega) hb.2]
        exact ih _ _ _

theorem initLoop_single_sid (m : Nat) (es : List element) : ∀ sp sz cur,
    sp ≠ 0 → (∀ e ∈ es, e.seriesID ≠ 0) → (∀ r ∈ cur, r.seriesID = sp) → cur ≠ [] →
    ∀ b ∈ initLoop m es sp sz cur, b.rows ≠ [] ∧ ∀ r ∈ b.rows, r.seriesID = b.sid := by
  induction es with
  | nil =>
    intro sp sz cur hsp _ hcur hne b hb
    rw [initLoop_nil_eq] at hb
    rcases List.mem_singleton.mp hb with hb1
    subst hb1
    refine ⟨by simpa using hne, ?_⟩
    intro r hr
    exact hcur r (List.mem_reverse.mp hr)
  | cons e rest ih =>
    intro sp sz cur hsp hes hcur hne b hb
    by_cases hbd : sz ≥ m ∨ e.seriesID ≠ sp
    · rw [initLoop_cons_boundary m e rest sp sz cur hsp hbd] at hb
      rcases List.mem_cons.mp hb with hb1 | hb1
      · subst hb1
        refine ⟨by simpa using hne, ?_⟩
        intro r hr
        exact hcur r (List.mem_reverse.mp hr)
      · refine ih e.seriesID _ [e] (hes e (by simp)) (fun x hx => hes x (by simp [hx])) ?_ (by simp) b hb1
        intro r hr
        rw [List.mem_singleton.mp hr]
    · push_neg at hbd
      rw [initLoop_cons_go m e rest sp sz cur hsp (by omega) hbd.2] at hb
      refine ih sp _ (e :: cur) hsp (fun x hx => hes x (by simp [hx])) ?_ (by simp) b hb
      intro r hr
      rcases List.mem_cons.mp hr with hr1 | hr1
      · rw [hr1, hbd.2]
      · exact hcur r hr1

theorem initLoop_block_size (m : Nat) (es : List element) : ∀ sp sz cur,
    0 < m → sz = sizeSum cur → sizeSum (cur.drop 1) < m →
    ∀ b ∈ initLoop m es sp sz cur, sizeSum b.rows.dropLast < m := by
  induction es with
  | nil =>
    intro sp sz cur hm hsz hdrop b hb
    rw [initLoop_nil_eq] at hb
    rcases List.mem_singleton.mp hb with hb1
    subst hb1
    cases cur with
    | nil => simpa [sizeSum_nil] using hm
    | cons c cs =>
      show sizeSum ((c :: cs).reverse.dropLast) < m
      rw [List.reverse_cons, List.dropLast_concat, sizeSum_reverse]
      simpa using hdrop
  | cons e rest ih =>
    intro sp sz cur hm hsz hdrop b hb
    have hfirst : ∀ s0 : Nat, sizeSum (writtenBlock.mk s0 cur.reverse).rows.dropLast < m := by
      intro s0
      cases cur with
      | nil => simpa [sizeSum_nil] using hm
      | cons c cs =>
        show sizeSum ((c :: cs).reverse.dropLast) < m
        rw [List.reverse_cons, List.dropLast_concat, sizeSum_reverse]
        simpa using hdrop
    have hgo : sz < m → ∀ hb1 : b ∈ initLoop m rest (if sp = 0 then e.seriesID else sp)
        (sz + uncompressedElementSizeBytes e) (e :: cur), sizeSum b.rows.dropLast < m := by
      intro hszm hb1
      refine ih _ _ (e :: cur) hm (by rw [sizeSum_cons]; omega) ?_ b hb1
      simpa using hsz ▸ hszm
    by_cases hsp : sp = 0
    · subst hsp
      by_cases hbnd : sz ≥ m
      · rw [initLoop_cons_zero_boundary m e rest sz cur hbnd] at hb
        rcases List.mem_cons.mp hb with hb1 | hb1
        · rw [hb1]
          exact hfirst e.seriesID
        · exact ih _ _ [e] hm (by simp [sizeSum_cons, sizeSum_nil]) (by simpa using hm) b hb1
      · rw [initLoop_cons_zero m e rest sz cur hbnd] at hb
        have := hgo (by omega)
        simp only [if_pos rfl] at this
        exact this hb
    · by_cases hbd : sz ≥ m ∨ e.seriesID ≠ sp
      · rw [initLoop_cons_boundary m e rest sp sz cur hsp hbd] at hb
        rcases List.mem_cons.mp hb with hb1 | hb1
        · rw [hb1]
          exact hfirst sp
        · exact ih _ _ [e] hm (by simp [sizeSum_cons, sizeSum_nil]) (by simpa using hm) b hb1
      · push_neg at hbd
        rw [initLoop_cons_go m e rest sp sz cur hsp (by omega) hbd.2] at hb
        have := hgo (by omega)
        simp only [if_neg hsp] at this
        exact this hb

theorem initLoop_one_block_iff (m : Nat) (es : List element) : ∀ sp sz cur,
    sp ≠ 0 → (∀ e ∈ es, e.seriesID = sp) →
    ((initLoop m es sp sz cur).length = 1 ↔
      ∀ i, i < es.length → sz + sizeSum (es.take i) < m) := by
  induction es with
  | nil =>
    intro sp sz cur _ _
    rw [initLoop_nil_eq]
    simp
  | cons e rest ih =>
    intro sp sz cur hsp hes
    by_cases hbnd : sz ≥ m
    · rw [initLoop_cons_boundary m e rest sp sz cur hsp (Or.inl hbnd)]
      constructor
      · intro hlen
        exfalso
        have := initLoop_length_pos m rest e.seriesID (uncompressedElementSizeBytes e) [e]
        rw [List.length_cons] at hlen
        omega
      · intro hall
        have := hall 0 (by simp)
        simp [sizeSum_nil] at this
        omega
    · rw [initLoop_cons_go m e rest sp sz cur hsp hbnd (hes e (by simp))]
      rw [ih sp _ (e :: cur) hsp (fun x hx => hes x (by simp [hx]))]
      constructor
      · intro hall i hi
        cases i with
        | zero =>
          simp [sizeSum_nil]
          omega
        | succ j =>
          have := hall j (by simpa using hi)
          simpa [sizeSum_cons] using by omega
      · intro hall j hj
        have := hall (j + 1) (by simpa using hj)
        simp [sizeSum_cons] at this
        omega

theorem blocks_pairwise (bs : List writtenBlock)
    (h1 : ∀ b ∈ bs, b.rows ≠ []) (h2 : ∀ b ∈ bs, ∀ r ∈ b.rows, r.seriesID = b.sid)
    (h3 : List.Pairwise elLe (bs.flatMap writtenBlock.rows)) :
    List.Pairwise blockLe bs := by
  induction bs with
  | nil => simp
  | cons b rest ih =>
    rw [List.flatMap_cons, List.pairwise_append] at h3
    rw [List.pairwise_cons]
    constructor
    · intro b2 hb2
      obtain ⟨r1, rs1, hr1⟩ := List.exists_cons_of_ne_nil (h1 b (by simp))
      obtain ⟨r2, rs2, hr2⟩ := List.exists_cons_of_ne_nil (h1 b2 (by simp [hb2]))
      have hmem2 : r2 ∈ rest.flatMap writtenBlock.rows := by
        rw [List.mem_flatMap]
        exact ⟨b2, hb2, by simp [hr2]⟩
      have hle : elLe r1 r2 := h3.2.2 r1 (by simp [hr1]) r2 hmem2
      have hs1 : r1.seriesID = b.sid := h2 b (by simp) r1 (by simp [hr1])
      have hs2 : r2.seriesID = b2.sid := h2 b2 (by simp [hb2]) r2 (by simp [hr2])
      have ht1 : firstTs b = r1.timestamp := by simp [firstTs, hr1]
      have ht2 : firstTs b2 = r2.timestamp := by simp [firstTs, hr2]
      unfold elLe at hle
      unfold blockLe
      rw [ht1, ht2]
      omega
    · exact ih (fun x hx => h1 x (by simp [hx])) (fun x hx => h2 x (by simp [hx])) h3.2.1

theorem mustInit_entry (m : Nat) (es : List element) (e0 : element) (rest : List element)
    (hm : 0 < m) (hsort : sortElements es = e0 :: rest) :
    mustInitFromElements m es =
      initLoop m rest e0.seriesID (uncompressedElementSizeBytes e0) [e0] := by
  have hne : es ≠ [] := by
    intro hc
    rw [hc] at hsort
    simp [sortElements] at hsort
  unfold mustInitFromElements
  rw [if_neg (by simpa using hne), hsort, initLoop_cons_zero m e0 rest 0 [] (by omega)]
  simp

/-- C2 counterexample: a batch holding a row of series identifier 0 followed
by a row of series identifier 1 (well under the size cap) is packed into one
single block labelled with series 1 that contains both rows — the
`sidPrev == 0` "unset" sentinel swallows the series transition out of
series 0, so the claim fails as stated for batches containing series
identifier 0. -/
theorem mustInitFromElements_counterexample :
    mustInitFromElements 1000 [⟨0, 0, 0, []⟩, ⟨1, 0, 1, []⟩] =
      [⟨1, [⟨0, 0, 0, []⟩, ⟨1, 0, 1, []⟩]⟩] ∧
    ¬ (∀ b ∈ mustInitFromElements 1000 [⟨0, 0, 0, []⟩, ⟨1, 0, 1, []⟩],
        ∀ r ∈ b.rows, r.seriesID = b.sid) := by
  decide

/-- C2 (amended): for every non-empty batch whose series identifiers are all
nonzero (zero is the loop's internal "unset" sentinel) and a positive size
cap, the builder's written blocks are each non-empty and single-series
(labelled with exactly their rows' series identifier), the block sequence is
sorted by (series identifier, first timestamp), and the blocks partition the
sorted batch. -/
theorem mustInitFromElements_sorted_blocks (m : Nat) (es : List element)
    (hne : es ≠ []) (hsid : ∀ e ∈ es, e.seriesID ≠ 0) (hm : 0 < m) :
    (∀ b ∈ mustInitFromElements m es, b.rows ≠ [] ∧ ∀ r ∈ b.rows, r.seriesID = b.sid) ∧
    List.Pairwise blockLe (mustInitFromElements m es) ∧
    (mustInitFromElements m es).flatMap writtenBlock.rows = sortElements es := by
  obtain ⟨e0, rest, hsort⟩ := List.exists_cons_of_ne_nil (sortElements_ne_nil es hne)
  have hentry := mustInit_entry m es e0 rest hm hsort
  have hmem : ∀ x ∈ e0 :: rest, x ∈ es := by
    intro x hx
    exact (sortElements_perm es).mem_iff.mp (hsort ▸ hx)
  have hone : ∀ b ∈ mustInitFromElements m es,
      b.rows ≠ [] ∧ ∀ r ∈ b.rows, r.seriesID = b.sid := by
    rw [hentry]
    exact initLoop_single_sid m rest e0.seriesID _ [e0]
      (hsid e0 (hmem e0 (by simp)))
      (fun x hx => hsid x (hmem x (by simp [hx])))
      (by intro r hr; rw [List.mem_singleton.mp hr]) (by simp)
  have hjoin : (mustInitFromElements m es).flatMap writtenBlock.rows = sortElements es := by
    rw [hentry, initLoop_join, hsort]
    simp
  refine ⟨hone, ?_, hjoin⟩
  exact blocks_pairwise _ (fun b hb => (hone b hb).1) (fun b hb => (hone b hb).2)
    (by rw [hjoin]; exact sortElements_pairwise es)

/-- C2 witness: a concrete two-series batch — two blocks, one per series,
sorted, partitioning the sorted batch. -/
theorem mustInitFromElements_sorted_blocks_witness :
    (∀ b ∈ mustInitFromElements 100 [⟨2, 5, 1, []⟩, ⟨1, 3, 2, []⟩],
      b.rows ≠ [] ∧ ∀ r ∈ b.rows, r.seriesID = b.sid) ∧
    List.Pairwise blockLe (mustInitFromElements 100 [⟨2, 5, 1, []⟩, ⟨1, 3, 2, []⟩]) ∧
    (mustInitFromElements 100 [⟨2, 5, 1, []⟩, ⟨1, 3, 2, []⟩]).flatMap writtenBlock.rows =
      sortElements [⟨2, 5, 1, []⟩, ⟨1, 3, 2, []⟩] :=
  mustInitFromElements_sorted_blocks 100 [⟨2, 5, 1, []⟩, ⟨1, 3, 2, []⟩]
    (by decide) (by decide) (by decide)

/-- C3 counterexample: two rows of one series, 60 uncompressed bytes each,
against a cap of 100 — the cumulative size 120 is forced past the cap, yet
the builder emits a single block (the cap check runs against the running
size *before* adding each row), contradicting "at least two blocks" and "no
written block's uncompressed size exceeds the cap". -/
theorem mustInitFromElements_size_counterexample :
    sizeSum [⟨1, 1, 1, [⟨"", [⟨44⟩]⟩]⟩, ⟨1, 2, 2, [⟨"", [⟨44⟩]⟩]⟩] = 120 ∧
    (mustInitFromElements 100 [⟨1, 1, 1, [⟨"", [⟨44⟩]⟩]⟩, ⟨1, 2, 2, [⟨"", [⟨44⟩]⟩]⟩]).length
      = 1 ∧
    ∃ b ∈ mustInitFromElements 100 [⟨1, 1, 1, [⟨"", [⟨44⟩]⟩]⟩, ⟨1, 2, 2, [⟨"", [⟨44⟩]⟩]⟩],
      100 < sizeSum b.rows := by
  decide

/-- C3 (amended): for a single nonzero series and a positive cap — if the
batch's total uncompressed size stays below the cap the builder produces
exactly one block; it produces at least two blocks exactly when some proper
non-empty prefix of the sorted batch already reaches the cap (the split is
placed before the first row at which the running size of the current block
has reached or passed the cap, so the row that pushes the running size to
the cap still lands in the earlier block); consequently every written block
except for its last row stays below the cap, though the block itself may
exceed it. -/
theorem mustInitFromElements_size_split (m s : Nat) (es : List element)
    (hne : es ≠ []) (hsid : ∀ e ∈ es, e.seriesID = s) (hs0 : s ≠ 0) (hm : 0 < m) :
    (sizeSum es < m → (mustInitFromElements m es).length = 1) ∧
    (2 ≤ (mustInitFromElements m es).length ↔
      ∃ p, p <+: sortElements es ∧ p ≠ [] ∧ p.length < es.length ∧ m ≤ sizeSum p) ∧
    (∀ b ∈ mustInitFromElements m es, sizeSum b.rows.dropLast < m) := by
  obtain ⟨e0, rest, hsort⟩ := List.exists_cons_of_ne_nil (sortElements_ne_nil es hne)
  have hentry := mustInit_entry m es e0 rest hm hsort
  have hmem : ∀ x ∈ e0 :: rest, x ∈ es := by
    intro x hx
    exact (sortElements_perm es).mem_iff.mp (hsort ▸ hx)
  have he0 : e0.seriesID = s := hsid e0 (hmem e0 (by simp))
  have hiff : (mustInitFromElements m es).length = 1 ↔
      ∀ i, i < rest.length →
        uncompressedElementSizeBytes e0 + sizeSum (rest.take i) < m := by
    rw [hentry]
    exact initLoop_one_block_iff m rest e0.seriesID _ [e0] (he0 ▸ hs0)
      (fun x hx => (hsid x (hmem x (by simp [hx]))).trans he0.symm)
  have hlenpos : 0 < (mustInitFromElements m es).length := by
    rw [hentry]
    exact initLoop_length_pos m rest e0.seriesID _ [e0]
  have hsize : sizeSum es = uncompressedElementSizeBytes e0 + sizeSum rest := by
    rw [← sizeSum_perm (sortElements_perm es), hsort, sizeSum_cons]
  have hlen : es.length = rest.length + 1 := by
    rw [← (sortElements_perm es).length_eq, hsort, List.length_cons]
  refine ⟨?_, ?_, ?_⟩
  · intro htot
    rw [hiff]
    intro i hi
    have := sizeSum_take_le i rest
    omega
  · have h21 : 2 ≤ (mustInitFromElements m es).length ↔
        ¬ (mustInitFromElements m es).length = 1 := by omega
    rw [h21, hiff]
    push_neg
    constructor
    · rintro ⟨i, hi, hge⟩
      refine ⟨e0 :: rest.take i, ?_, by simp, ?_, ?_⟩
      · obtain ⟨t, ht⟩ := List.take_prefix i rest
        rw [hsort]
        exact ⟨t, by simp [ht]⟩
      · simp only [List.length_cons, List.length_take]
        omega
      · rw [sizeSum_cons]
        omega
    · rintro ⟨p, hp, hpne, hplen, hpsz⟩
      have hpk := List.prefix_iff_eq_take.mp hp
      obtain ⟨q0, qrest, hq⟩ := List.exists_cons_of_ne_nil hpne
      have hklen : p.length = qrest.length + 1 := by
        rw [hq, List.length_cons]
      rw [hsort, hklen, List.take_succ_cons] at hpk
      refine ⟨qrest.length, ?_, ?_⟩
      · omega
      · rw [hpk, sizeSum_cons] at hpsz
        omega
  · rw [hentry]
    exact initLoop_block_size m rest e0.seriesID _ [e0] hm
      (by simp [sizeSum_cons, sizeSum_nil]) (by simpa using hm)

/-- C3 witness: three rows of 60 bytes each against a cap of 100 — the
one-block criterion, the two-block criterion (the two-row prefix of 120
bytes reaches the cap) and the per-block bound, at a concrete batch. -/
theorem mustInitFromElements_size_split_witness :
    (sizeSum [⟨1, 1, 1, [⟨"", [⟨44⟩]⟩]⟩, ⟨1, 2, 2, [⟨"", [⟨44⟩]⟩]⟩, ⟨1, 3, 3, [⟨"", [⟨44⟩]⟩]⟩] < 100 →
      (mustInitFromElements 100 [⟨1, 1, 1, [⟨"", [⟨44⟩]⟩]⟩, ⟨1, 2, 2, [⟨"", [⟨44⟩]⟩]⟩, ⟨1, 3, 3, [⟨"", [⟨44⟩]⟩]⟩]).length = 1) ∧
    (2 ≤ (mustInitFromElements 100 [⟨1, 1, 1, [⟨"", [⟨44⟩]⟩]⟩, ⟨1, 2, 2, [⟨"", [⟨44⟩]⟩]⟩, ⟨1, 3, 3, [⟨"", [⟨44⟩]⟩]⟩]).length ↔
      ∃ p, p <+: sortElements [⟨1, 1, 1, [⟨"", [⟨44⟩]⟩]⟩, ⟨1, 2, 2, [⟨"", [⟨44⟩]⟩]⟩, ⟨1, 3, 3, [⟨"", [⟨44⟩]⟩]⟩] ∧
        p ≠ [] ∧ p.length < 3 ∧ 100 ≤ sizeSum p) ∧
    (∀ b ∈ mustInitFromElements 100 [⟨1, 1, 1, [⟨"", [⟨44⟩]⟩]⟩, ⟨1, 2, 2, [⟨"", [⟨44⟩]⟩]⟩, ⟨1, 3, 3, [⟨"", [⟨44⟩]⟩]⟩],
      sizeSum b.rows.dropLast < 100) :=
  mustInitFromElements_size_split 100 1
    [⟨1, 1, 1, [⟨"", [⟨44⟩]⟩]⟩, ⟨1, 2, 2, [⟨"", [⟨44⟩]⟩]⟩, ⟨1, 3, 3, [⟨"", [⟨44⟩]⟩]⟩]
    (by decide) (by decide) (by decide) (by decide)

/- Helper lemmas: strings, extensions, filesystem lookup -/

theorem strToList_append (a b : String) : (a ++ b).toList = a.toList ++ b.toList :=
  String.data_append a b

theorem extName_append_tf (n : String) : extName (n ++ tagFamiliesFilenameExt) =
    tagFamiliesFilenameExt := by
  unfold extName tagFamiliesFilenameExt
  have h1 : (n ++ ".tf").toList.reverse.takeWhile (fun c => c ≠ '.') = ['f', 't'] := by
    rw [strToList_append]
    simp [List.takeWhile_cons]
  have h2 : (n ++ ".tf").toList.reverse.length = n.toList.length + 3 := by
    rw [strToList_append]
    simp
  simp only [h1, h2]
  rw [if_neg (by simp)]
  rfl

theorem extName_append_tfm (n : String) : extName (n ++ tagFamiliesMetadataFilenameExt) =
    tagFamiliesMetadataFilenameExt := by
  unfold extName tagFamiliesMetadataFilenameExt
  have h1 : (n ++ ".tfm").toList.reverse.takeWhile (fun c => c ≠ '.') = ['m', 'f', 't'] := by
    rw [strToList_append]
    simp [List.takeWhile_cons]
  have h2 : (n ++ ".tfm").toList.reverse.length = n.toList.length + 4 := by
    rw [strToList_append]
    simp
  simp only [h1, h2]
  rw [if_neg (by simp)]
  rfl

theorem removeExt_append (n ext : String) :
    removeExt (n ++ ext) ext = n := by
  unfold removeExt
  rw [strToList_append, String.length_append]
  have h3 : n.length + ext.length - ext.length = n.toList.length := by
    have hn : n.length = n.toList.length := rfl
    omega
  rw [h3, List.take_left]
  rfl

theorem getLast_append_str (n s : String) (h : s.toList ≠ []) :
    (n ++ s).toList.getLast? = s.toList.getLast? := by
  rw [strToList_append, List.getLast?_append]
  cases hs : s.toList.getLast? with
  | none =>
    exfalso
    exact h (List.getLast?_eq_none_iff.mp hs)
  | some c => rfl

theorem str_ne_of_getLast (a b : String) (h : a.toList.getLast? ≠ b.toList.getLast?) :
    a ≠ b := by
  intro hc
  rw [hc] at h
  exact h rfl

theorem append_tf_ne (n : String) (t : String)
    (h : t.toList.getLast? ≠ some 'f') : n ++ tagFamiliesFilenameExt ≠ t := by
  apply str_ne_of_getLast
  rw [getLast_append_str n tagFamiliesFilenameExt (by decide)]
  intro hc
  rw [← hc] at h
  exact h rfl

theorem append_tfm_ne (n : String) (t : String)
    (h : t.toList.getLast? ≠ some 'm') : n ++ tagFamiliesMetadataFilenameExt ≠ t := by
  apply str_ne_of_getLast
  rw [getLast_append_str n tagFamiliesMetadataFilenameExt (by decide)]
  intro hc
  rw [← hc] at h
  exact h rfl

theorem fsLookup_none (l : List (List String × fentry)) (p : List String)
    (h : ∀ kv ∈ l, kv.1 ≠ p) : fsLookup l p = none := by
  induction l with
  | nil => rfl
  | cons kv rest ih =>
    simp only [fsLookup]
    rw [if_neg (h kv (by simp))]
    exact ih (fun x hx => h x (by simp [hx]))

theorem fsLookup_append_of_none (a b : List (List String × fentry)) (p : List String)
    (h : fsLookup a p = none) : fsLookup (a ++ b) p = fsLookup b p := by
  induction a with
  | nil => rfl
  | cons kv rest ih =>
    rw [List.cons_append]
    simp only [fsLookup] at h ⊢
    split at h
    · simp at h
    · rename_i hne
      rw [if_neg hne]
      exact ih h

theorem pathKey_inj (pp : List String) (a b : String) :
    pp ++ [a] = pp ++ [b] ↔ a = b := by
  constructor
  · intro h
    have := List.append_cancel_left h
    simpa using this
  · intro h
    rw [h]

theorem pathKey_ne (pp : List String) (a b : String) (h : a ≠ b) :
    pp ++ [a] ≠ pp ++ [b] := by
  intro hc
  exact h ((pathKey_inj pp a b).mp hc)

theorem assocLookup_none {α : Type} (l : List (String × α)) (t : String)
    (h : ∀ kv ∈ l, kv.1 ≠ t) : assocLookup l t = none := by
  induction l with
  | nil => rfl
  | cons kv rest ih =>
    simp only [assocLookup]
    rw [if_neg (h kv (by simp))]
    exact ih (fun x hx => h x (by simp [hx]))

theorem assocLookup_append_of_none {α : Type} (a b : List (String × α)) (t : String)
    (h : assocLookup a t = none) : assocLookup (a ++ b) t = assocLookup b t := by
  induction a with
  | nil => rfl
  | cons kv rest ih =>
    rw [List.cons_append]
    simp only [assocLookup] at h ⊢
    split at h
    · simp at h
    · rename_i hne
      rw [if_neg hne]
      exact ih h

theorem readDir_append (a b : List (List String × fentry)) (d : List String) :
    readDir (a ++ b) d = readDir a d ++ readDir b d := by
  unfold readDir
  exact List.filterMap_append a b _

theorem readDir_skip (l : List (List String × fentry)) (d : List String)
    (h : ∀ kv ∈ l, ¬ d <+: kv.1) : readDir l d = [] := by
  induction l with
  | nil => rfl
  | cons kv rest ih =>
    unfold readDir
    rw [List.filterMap_cons]
    have hnone : (if kv.1.dropLast = d then kv.1.getLast?.map (fun n => (n, kv.2)) else none)
        = none := by
      rcases List.eq_nil_or_concat kv.1 with h0 | ⟨l2, x, hx⟩
      · rw [h0]
        simp
      · rw [List.concat_eq_append] at hx
        rw [hx, List.dropLast_concat]
        by_cases hd : l2 = d
        · exfalso
          exact h kv (by simp) (by rw [hx, hd]; exact ⟨[x], rfl⟩)
        · rw [if_neg hd]
    rw [hnone]
    exact ih (fun x hx => h x (by simp [hx]))

theorem readDir_single_dir (d : List String) (hne : d ≠ []) (e : fentry) :
    readDir [(d, e)] d = [] := by
  unfold readDir
  rw [List.filterMap_cons]
  have hd : ¬ d.dropLast = d := by
    intro hc
    have h1 := congrArg List.length hc
    rw [List.length_dropLast] at h1
    have h2 : d.length ≠ 0 := by
      intro hz
      exact hne (List.eq_nil_of_length_eq_zero hz)
    omega
  rw [if_neg hd]
  rfl

theorem readDir_map_entries (pp : List String) (l : List (String × fentry)) :
    readDir (l.map (fun ne => (pp ++ [ne.1], ne.2))) pp = l := by
  induction l with
  | nil => rfl
  | cons x xs ih =>
    rw [List.map_cons]
    unfold readDir at ih ⊢
    rw [List.filterMap_cons]
    simp [List.dropLast_concat, List.getLast?_concat, ih]

theorem fsLookup_map_assoc (pp : List String) (l : List (String × fentry)) (t : String) :
    fsLookup (l.map (fun ne => (pp ++ [ne.1], ne.2))) (pp ++ [t]) = assocLookup l t := by
  induction l with
  | nil => rfl
  | cons x xs ih =>
    rw [List.map_cons]
    simp only [fsLookup, assocLookup]
    by_cases hx : x.1 = t
    · rw [if_pos (by rw [hx]), if_pos hx]
    · rw [if_neg (pathKey_ne pp x.1 t hx), if_neg hx]
      exact ih

theorem partName_length (epoch : Nat) : 16 ≤ (partName epoch).length := by
  unfold partName
  show 16 ≤ (List.replicate (16 - (Nat.toDigits 16 epoch).length) '0'
    ++ Nat.toDigits 16 epoch).length
  rw [List.length_append, List.length_replicate]
  omega

theorem partName_ne_idx (epoch : Nat) : partName epoch ≠ elementIndexFilename := by
  intro hc
  have h1 := partName_length epoch
  rw [hc] at h1
  exact absurd h1 (by decide)

theorem assocLookup_tf_map_none (fams : List (String × List Nat)) (t : String)
    (h : t.toList.getLast? ≠ some 'f') :
    assocLookup (fams.map
      (fun nb => (nb.1 ++ tagFamiliesFilenameExt, fentry.fileBytes nb.2))) t = none := by
  apply assocLookup_none
  intro kv hkv
  rw [List.mem_map] at hkv
  obtain ⟨nb, _, hnb⟩ := hkv
  rw [← hnb]
  exact append_tf_ne nb.1 t h

theorem assocLookup_tfm_map_none (fams : List (String × List Nat)) (t : String)
    (h : t.toList.getLast? ≠ some 'm') :
    assocLookup (fams.map
      (fun nb => (nb.1 ++ tagFamiliesMetadataFilenameExt, fentry.fileBytes nb.2))) t = none := by
  apply assocLookup_none
  intro kv hkv
  rw [List.mem_map] at hkv
  obtain ⟨nb, _, hnb⟩ := hkv
  rw [← hnb]
  exact append_tfm_ne nb.1 t h

theorem flushNames_meta (mp : memPart) :
    assocLookup (flushNames mp) metaFilename = some (.fileBytes mp.meta) := by
  unfold flushNames
  simp [assocLookup]

theorem flushNames_primary (mp : memPart) :
    assocLookup (flushNames mp) primaryFilename = some (.fileBytes mp.primary) := by
  unfold flushNames
  simp [assocLookup, metaFilename, primaryFilename]

theorem flushNames_timestamps (mp : memPart) :
    assocLookup (flushNames mp) timestampsFilename = some (.fileBytes mp.timestamps) := by
  unfold flushNames
  simp [assocLookup, metaFilename, primaryFilename, timestampsFilename]

theorem flushNames_metadataJson (mp : memPart) :
    assocLookup (flushNames mp) metadataFilename = some (.fileMeta mp.partMetadata) := by
  unfold flushNames
  have hfront : assocLookup [(metaFilename, fentry.fileBytes mp.meta),
      (primaryFilename, fentry.fileBytes mp.primary),
      (timestampsFilename, fentry.fileBytes mp.timestamps)] metadataFilename = none := by
    simp [assocLookup, metaFilename, primaryFilename, timestampsFilename, metadataFilename]
  have hA := assocLookup_tf_map_none mp.tagFamilies metadataFilename (by decide)
  have hB := assocLookup_tfm_map_none mp.tagFamilyMetadata metadataFilename (by decide)
  have h12 : assocLookup ([(metaFilename, fentry.fileBytes mp.meta),
      (primaryFilename, fentry.fileBytes mp.primary),
      (timestampsFilename, fentry.fileBytes mp.timestamps)]
      ++ mp.tagFamilies.map
        (fun nb => (nb.1 ++ tagFamiliesFilenameExt, fentry.fileBytes nb.2)))
      metadataFilename = none := by
    rw [assocLookup_append_of_none _ _ _ hfront]
    exact hA
  have h123 : assocLookup (([(metaFilename, fentry.fileBytes mp.meta),
      (primaryFilename, fentry.fileBytes mp.primary),
      (timestampsFilename, fentry.fileBytes mp.timestamps)]
      ++ mp.tagFamilies.map
        (fun nb => (nb.1 ++ tagFamiliesFilenameExt, fentry.fileBytes nb.2)))
      ++ mp.tagFamilyMetadata.map
        (fun nb => (nb.1 ++ tagFamiliesMetadataFilenameExt, fentry.fileBytes nb.2)))
      metadataFilename = none := by
    rw [assocLookup_append_of_none _ _ _ h12]
    exact hB
  rw [assocLookup_append_of_none _ _ _ h123]
  simp [assocLookup]

theorem filterMap_over_map {A B C : Type} (g : A → B) (f : B → Option C) (l : List A)
    (h : ∀ x, f (g x) = none) : (l.map g).filterMap f = [] := by
  induction l with
  | nil => rfl
  | cons x xs ih => simp [List.filterMap_cons, h, ih]

theorem filterMap_over_map_some {A B C : Type} (g : A → B) (f : B → Option C) (k : A → C)
    (l : List A) (h : ∀ x, f (g x) = some (k x)) : (l.map g).filterMap f = l.map k := by
  induction l with
  | nil => rfl
  | cons x xs ih => simp [List.filterMap_cons, h, ih]

theorem flushNames_filter_tfm (mp : memPart) :
    (flushNames mp).filterMap (fun ne =>
      match ne.2 with
      | .fileBytes b =>
        if extName ne.1 = tagFamiliesMetadataFilenameExt then
          some (removeExt ne.1 tagFamiliesMetadataFilenameExt, b)
        else none
      | _ => none) = mp.tagFamilyMetadata := by
  unfold flushNames
  have e1 : extName "meta.bin" = ".bin" := by decide
  have e2 : extName "primary.bin" = ".bin" := by decide
  have e3 : extName "timestamps.bin" = ".bin" := by decide
  simp only [show tagFamiliesMetadataFilenameExt = ".tfm" from rfl,
             show tagFamiliesFilenameExt = ".tf" from rfl,
             show metaFilename = "meta.bin" from rfl,
             show primaryFilename = "primary.bin" from rfl,
             show timestampsFilename = "timestamps.bin" from rfl,
             show metadataFilename = "metadata.json" from rfl]
  have hA : ∀ nb : String × List Nat,
      (fun ne : String × fentry =>
        match ne.2 with
        | .fileBytes b =>
          if extName ne.1 = ".tfm" then some (removeExt ne.1 ".tfm", b) else none
        | _ => none) ((fun nb : String × List Nat =>
          (nb.1 ++ ".tf", fentry.fileBytes nb.2)) nb) = none := by
    intro nb
    have := extName_append_tf nb.1
    simp only [show tagFamiliesFilenameExt = ".tf" from rfl] at this
    simp [this]
  have hB : ∀ nb : String × List Nat,
      (fun ne : String × fentry =>
        match ne.2 with
        | .fileBytes b =>
          if extName ne.1 = ".tfm" then some (removeExt ne.1 ".tfm", b) else none
        | _ => none) ((fun nb : String × List Nat =>
          (nb.1 ++ ".tfm", fentry.fileBytes nb.2)) nb) = some (nb.1, nb.2) := by
    intro nb
    have h1 := extName_append_tfm nb.1
    have h2 := removeExt_append nb.1 ".tfm"
    simp only [show tagFamiliesMetadataFilenameExt = ".tfm" from rfl] at h1
    simp [h1, h2]
  rw [List.filterMap_append, List.filterMap_append, List.filterMap_append,
    filterMap_over_map _ _ mp.tagFamilies hA,
    filterMap_over_map_some _ _ _ mp.tagFamilyMetadata hB]
  simp [List.filterMap_cons, e1, e2, e3]

theorem flushNames_filter_tf (mp : memPart) :
    (flushNames mp).filterMap (fun ne =>
      match ne.2 with
      | .fileBytes b =>
        if extName ne.1 = tagFamiliesFilenameExt then
          some (removeExt ne.1 tagFamiliesFilenameExt, b)
        else none
      | _ => none) = mp.tagFamilies := by
  unfold flushNames
  have e1 : extName "meta.bin" = ".bin" := by decide
  have e2 : extName "primary.bin" = ".bin" := by decide
  have e3 : extName "timestamps.bin" = ".bin" := by decide
  simp only [show tagFamiliesMetadataFilenameExt = ".tfm" from rfl,
             show tagFamiliesFilenameExt = ".tf" from rfl,
             show metaFilename = "meta.bin" from rfl,
             show primaryFilename = "primary.bin" from rfl,
             show timestampsFilename = "timestamps.bin" from rfl,
             show metadataFilename = "metadata.json" from rfl]
  have hA : ∀ nb : String × List Nat,
      (fun ne : String × fentry =>
        match ne.2 with
        | .fileBytes b =>
          if extName ne.1 = ".tf" then some (removeExt ne.1 ".tf", b) else none
        | _ => none) ((fun nb : String × List Nat =>
          (nb.1 ++ ".tf", fentry.fileBytes nb.2)) nb) = some (nb.1, nb.2) := by
    intro nb
    have h1 := extName_append_tf nb.1
    have h2 := removeExt_append nb.1 ".tf"
    simp only [show tagFamiliesFilenameExt = ".tf" from rfl] at h1
    simp [h1, h2]
  have hB : ∀ nb : String × List Nat,
      (fun ne : String × fentry =>
        match ne.2 with
        | .fileBytes b =>
          if extName ne.1 = ".tf" then some (removeExt ne.1 ".tf", b) else none
        | _ => none) ((fun nb : String × List Nat =>
          (nb.1 ++ ".tfm", fentry.fileBytes nb.2)) nb) = none := by
    intro nb
    have h1 := extName_append_tfm nb.1
    simp only [show tagFamiliesMetadataFilenameExt = ".tfm" from rfl] at h1
    simp [h1]
  rw [List.filterMap_append, List.filterMap_append, List.filterMap_append,
    filterMap_over_map_some _ _ _ mp.tagFamilies hA,
    filterMap_over_map _ _ mp.tagFamilyMetadata hB]
  simp [List.filterMap_cons, e1, e2, e3]

theorem partMetadata_update_same_ID (pm : partMetadata) : { pm with ID := pm.ID } = pm := rfl

/-- C5: flushing a memory part to its part directory and reopening that
directory with the same numeric ID yields a part with the identical
metadata record, the identical decoded block-descriptor array, byte-identical
primary and timestamps streams, and byte-identical data and metadata streams
for every tag family. -/
theorem stream_flush_open_roundtrip (th : Int) (fs : GoFS) (mp : memPart)
    (root : List String) (id : Nat)
    (hfresh : ∀ kv ∈ fs.entries, ¬ partPath root id <+: kv.1)
    (hID : mp.partMetadata.ID = id) :
    ∃ fs2 p, mustFlush th fs mp (partPath root id) = some fs2 ∧
      mustOpenFilePart id root fs2 = some p ∧
      p.partMetadata = mp.partMetadata ∧
      p.primaryBlockMetadata = (openMemPart mp).primaryBlockMetadata ∧
      p.primary = mp.primary ∧ p.timestamps = mp.timestamps ∧
      p.tagFamilies = mp.tagFamilies ∧ p.tagFamilyMetadata = mp.tagFamilyMetadata := by
  have hpp : partPath root id = root ++ [partName id] := rfl
  have hlook0 : fsLookup fs.entries (partPath root id) = none := by
    apply fsLookup_none
    intro kv hkv heq
    exact hfresh kv hkv (heq ▸ List.prefix_refl _)
  have hidx : ¬ (partPath root id).getLast? = some elementIndexFilename := by
    rw [hpp, List.getLast?_concat]
    intro hc
    exact partName_ne_idx id (by injection hc)
  have hflush : mustFlush th fs mp (partPath root id) = some
      { entries := (fs.entries ++ [(partPath root id, fentry.dir)])
          ++ flushWritten mp (partPath root id),
        syncs := fs.syncs ++ [partPath root id],
        hints := fs.hints ++ (flushHintCandidates mp (partPath root id)).filter
          (fun p => ApplyIfLarge th (statSize
            ((fs.entries ++ [(partPath root id, fentry.dir)])
              ++ flushWritten mp (partPath root id)) p)) } := by
    unfold mustFlush
    rw [hlook0]
    simp only [Option.isSome_none, Bool.false_eq_true, if_false]
    rw [if_neg hidx]
  have hskip : ∀ t, fsLookup (fs.entries ++ [(partPath root id, fentry.dir)])
      (partPath root id ++ [t]) = none := by
    intro t
    apply fsLookup_none
    intro kv hkv
    rcases List.mem_append.mp hkv with hk | hk
    · intro heq
      exact hfresh kv hk (heq ▸ ⟨[t], rfl⟩)
    · have hkv2 : kv = (partPath root id, fentry.dir) := by simpa using hk
      rw [hkv2]
      intro heq
      have hlen := congrArg List.length heq
      simp at hlen
  have hlookE : ∀ t, fsLookup ((fs.entries ++ [(partPath root id, fentry.dir)])
      ++ flushWritten mp (partPath root id)) (partPath root id ++ [t]) =
      assocLookup (flushNames mp) t := by
    intro t
    rw [fsLookup_append_of_none _ _ _ (hskip t)]
    exact fsLookup_map_assoc (partPath root id) (flushNames mp) t
  have hreadE : readDir ((fs.entries ++ [(partPath root id, fentry.dir)])
      ++ flushWritten mp (partPath root id)) (partPath root id) = flushNames mp := by
    rw [readDir_append, readDir_append]
    rw [readDir_skip fs.entries (partPath root id) hfresh]
    rw [readDir_single_dir (partPath root id) (by rw [hpp]; simp) fentry.dir]
    have : readDir (flushWritten mp (partPath root id)) (partPath root id) = flushNames mp :=
      readDir_map_entries (partPath root id) (flushNames mp)
    rw [this]
    simp
  refine ⟨_, ⟨mp.primary, mp.timestamps, mp.tagFamilyMetadata, mp.tagFamilies,
      partPath root id, mustReadPrimaryBlockMetadata mp.meta, mp.partMetadata⟩,
    hflush, ?_, rfl, rfl, rfl, rfl, rfl, rfl⟩
  unfold mustOpenFilePart mustOpenReader
  dsimp only
  rw [hlookE metadataFilename, flushNames_metadataJson,
      hlookE metaFilename, flushNames_meta,
      hlookE primaryFilename, flushNames_primary,
      hlookE timestampsFilename, flushNames_timestamps,
      hreadE, flushNames_filter_tfm, flushNames_filter_tf]
  rw [← hID]

/-- C5 witness: a concrete flush/reopen round trip on an empty filesystem. -/
theorem stream_flush_open_roundtrip_witness :
    ∃ fs2 p, mustFlush 64 ⟨[], [], []⟩
        ⟨[1, 2, 3, 4], [5], [6], [("f", [9])], [("f", [8])], ⟨7, 1, 2, 0, 5⟩⟩
        (partPath ["r"] 7) = some fs2 ∧
      mustOpenFilePart 7 ["r"] fs2 = some p ∧
      p.partMetadata = ⟨7, 1, 2, 0, 5⟩ ∧
      p.primaryBlockMetadata =
        (openMemPart ⟨[1, 2, 3, 4], [5], [6], [("f", [9])], [("f", [8])], ⟨7, 1, 2, 0, 5⟩⟩).primaryBlockMetadata ∧
      p.primary = [5] ∧ p.timestamps = [6] ∧
      p.tagFamilies = [("f", [9])] ∧ p.tagFamilyMetadata = [("f", [8])] :=
  stream_flush_open_roundtrip 64 ⟨[], [], []⟩
    ⟨[1, 2, 3, 4], [5], [6], [("f", [9])], [("f", [8])], ⟨7, 1, 2, 0, 5⟩⟩
    ["r"] 7 (by simp) rfl

/- Helper lemmas: the merge key order and the modelled priority queue -/

theorem bmLess_true_iff (x y : blockMetadata) : bmLess x y = true ↔
    (x.seriesID < y.seriesID ∨ (x.seriesID = y.seriesID ∧ x.minTimestamp < y.minTimestamp)) := by
  unfold bmLess
  simp

theorem bmLe_of_not_bmLess {x y : blockMetadata} (h : bmLess y x = false) : bmLe x y := by
  rw [← Bool.not_eq_true, bmLess_true_iff] at h
  unfold bmLe
  push_neg at h
  omega

theorem bmLe_refl (x : blockMetadata) : bmLe x x := by
  unfold bmLe
  omega

theorem bmLe_trans {x y z : blockMetadata} (h1 : bmLe x y) (h2 : bmLe y z) : bmLe x z := by
  unfold bmLe at h1 h2 ⊢
  omega

theorem pqExtract_perm (x : partMergeIter) (l : List partMergeIter) :
    ((pqExtract x l).1 :: (pqExtract x l).2).Perm (x :: l) := by
  induction l generalizing x with
  | nil => simp [pqExtract]
  | cons y ys ih =>
    unfold pqExtract
    split
    · dsimp only
      exact (List.Perm.swap x (pqExtract y ys).1 (pqExtract y ys).2).trans ((ih y).cons x)
    · dsimp only
      exact (List.Perm.swap y (pqExtract x ys).1 (pqExtract x ys).2).trans
        (((ih x).cons y).trans (List.Perm.swap x y ys))

theorem pqExtract_min (x : partMergeIter) (l : List partMergeIter) :
    bmLess x.block (pqExtract x l).1.block = false ∧
    ∀ z ∈ (pqExtract x l).2, bmLess z.block (pqExtract x l).1.block = false := by
  induction l generalizing x with
  | nil =>
    refine ⟨?_, by simp [pqExtract]⟩
    rw [← Bool.not_eq_true, bmLess_true_iff]
    simp [pqExtract]
  | cons y ys ih =>
    unfold pqExtract
    split
    · dsimp only
      rename_i hyx
      obtain ⟨h1, h2⟩ := ih y
      have hxm : bmLess x.block (pqExtract y ys).1.block = false := by
        rw [← Bool.not_eq_true, bmLess_true_iff] at h1 ⊢
        rw [bmLess_true_iff] at hyx
        push_neg at h1 ⊢
        omega
      refine ⟨hxm, ?_⟩
      intro z hz
      rcases List.mem_cons.mp hz with hz1 | hz1
      · rw [hz1]
        exact hxm
      · exact h2 z hz1
    · dsimp only
      rename_i hyx
      rw [Bool.not_eq_true] at hyx
      obtain ⟨h1, h2⟩ := ih x
      refine ⟨h1, ?_⟩
      intro z hz
      rcases List.mem_cons.mp hz with hz1 | hz1
      · rw [hz1]
        rw [← Bool.not_eq_true, bmLess_true_iff] at h1 ⊢
        rw [← Bool.not_eq_true, bmLess_true_iff] at hyx
        push_neg at h1 hyx ⊢
        omega
      · exact h2 z hz1

theorem pqExtract_root_le (x : partMergeIter) (l : List partMergeIter) :
    ∀ z ∈ x :: l, bmLe (pqExtract x l).1.block z.block := by
  intro z hz
  have hperm := pqExtract_perm x l
  have hmem : z ∈ (pqExtract x l).1 :: (pqExtract x l).2 := hperm.mem_iff.mpr hz
  rcases List.mem_cons.mp hmem with hz1 | hz1
  · rw [hz1]
    exact bmLe_refl _
  · exact bmLe_of_not_bmLess ((pqExtract_min x l).2 z hz1)

/-- Total size of the queued work in a list of live iterators. -/
theorem qSum_perm {a b : List partMergeIter}
    (h : a.Perm b) :
    (a.map (fun it => it.pending.length + 1)).sum =
      (b.map (fun it => it.pending.length + 1)).sum :=
  (h.map _).sum_eq

theorem pqExtract_qSum (x : partMergeIter) (l : List partMergeIter) :
    ((pqExtract x l).1.pending.length + 1) +
      (((pqExtract x l).2).map (fun it => it.pending.length + 1)).sum =
      ((x :: l).map (fun it => it.pending.length + 1)).sum := by
  have h := qSum_perm (pqExtract_perm x l)
  simpa using h

theorem brNext_st_advance (x : partMergeIter) (xs : List partMergeIter)
    (blk : Option blockMetadata) (b : blockMetadata) (rest : List blockMetadata)
    (h : (pqExtract x xs).1.pending = b :: rest) :
    brNextBlockMetadata { err := none, block := blk, pih := x :: xs, nextBlockNoop := false } =
      (true, { err := none,
               block := (pqRoot ({ (pqExtract x xs).1 with block := b, pending := rest }
                 :: (pqExtract x xs).2)).map (fun it => it.block),
               pih := { (pqExtract x xs).1 with block := b, pending := rest }
                 :: (pqExtract x xs).2,
               nextBlockNoop := false }) := by
  unfold brNextBlockMetadata brNextMetadata pmNextBlockMetadata
  simp [h]

theorem brNext_st_bad (x : partMergeIter) (xs : List partMergeIter)
    (blk : Option blockMetadata) (e : String)
    (h : (pqExtract x xs).1.pending = []) (he : (pqExtract x xs).1.errOnExhaust = some e) :
    brNextBlockMetadata { err := none, block := blk, pih := x :: xs, nextBlockNoop := false } =
      (false, { err := some (.wrapped e), block := none, pih := x :: xs,
                nextBlockNoop := false }) := by
  unfold brNextBlockMetadata brNextMetadata pmNextBlockMetadata pmError
  simp [h, he]

theorem brNext_st_pop_last (x : partMergeIter) (xs : List partMergeIter)
    (blk : Option blockMetadata)
    (h : (pqExtract x xs).1.pending = []) (he : (pqExtract x xs).1.errOnExhaust = none)
    (h2 : (pqExtract x xs).2 = []) :
    brNextBlockMetadata { err := none, block := blk, pih := x :: xs, nextBlockNoop := false } =
      (false, { err := some .eof, block := none, pih := [], nextBlockNoop := false }) := by
  unfold brNextBlockMetadata brNextMetadata pmNextBlockMetadata pmError
  simp [h, he, h2]

theorem brNext_st_pop (x : partMergeIter) (xs : List partMergeIter)
    (blk : Option blockMetadata) (z : partMergeIter) (zs : List partMergeIter)
    (h : (pqExtract x xs).1.pending = []) (he : (pqExtract x xs).1.errOnExhaust = none)
    (h2 : (pqExtract x xs).2 = z :: zs) :
    brNextBlockMetadata { err := none, block := blk, pih := x :: xs, nextBlockNoop := false } =
      (true, { err := none,
               block := (pqRoot (z :: zs)).map (fun it => it.block),
               pih := z :: zs, nextBlockNoop := false }) := by
  unfold brNextBlockMetadata brNextMetadata pmNextBlockMetadata pmError
  simp [h, he, h2]

theorem itBlock_head_le (it : partMergeIter) (h : List.Pairwise bmLe (itBlocks it))
    (y : blockMetadata) (hy : y ∈ itBlocks it) : bmLe it.block y := by
  unfold itBlocks at h hy
  rcases List.mem_cons.mp hy with hy1 | hy1
  · rw [hy1]
    exact bmLe_refl _
  · exact (List.pairwise_cons.mp h).1 y hy1

/-- Core merge lemma: from a running reader state over a non-empty clean
queue, the root's block followed by the emitted blocks is a permutation of
all blocks held by the queue's iterators. -/
theorem brEmit_core_perm : ∀ (n : Nat) (x : partMergeIter) (xs : List partMergeIter)
    (blk : Option blockMetadata),
    ((x :: xs).map (fun it => it.pending.length + 1)).sum < n →
    (∀ it ∈ x :: xs, it.errOnExhaust = none) →
    ((pqExtract x xs).1.block ::
      brEmitFuel n { err := none, block := blk, pih := x :: xs, nextBlockNoop := false }).Perm
      ((x :: xs).flatMap itBlocks) := by
  intro n
  induction n with
  | zero =>
    intro x xs blk h _
    omega
  | succ n ih =>
    intro x xs blk hn hclean
    have hqsum := pqExtract_qSum x xs
    have hmemroot : (pqExtract x xs).1 ∈ x :: xs :=
      (pqExtract_perm x xs).mem_iff.mp (by simp)
    have hmemrest : ∀ z ∈ (pqExtract x xs).2, z ∈ x :: xs := by
      intro z hz
      exact (pqExtract_perm x xs).mem_iff.mp (by simp [hz])
    have hflat : ((pqExtract x xs).1 :: (pqExtract x xs).2).flatMap itBlocks
        |>.Perm ((x :: xs).flatMap itBlocks) :=
      List.Perm.flatMap_right itBlocks (pqExtract_perm x xs)
    rcases hpend : (pqExtract x xs).1.pending with _ | ⟨b, rest⟩
    · have herr : (pqExtract x xs).1.errOnExhaust = none := hclean _ hmemroot
      rcases hr2 : (pqExtract x xs).2 with _ | ⟨z, zs⟩
      · simp only [brEmitFuel]
        rw [brNext_st_pop_last x xs blk hpend herr hr2]
        simp only [Bool.false_eq_true, if_false]
        refine List.Perm.trans ?_ hflat
        rw [hr2]
        simp [itBlocks, hpend]
      · simp only [brEmitFuel]
        rw [brNext_st_pop x xs blk z zs hpend herr hr2]
        simp only [if_pos rfl, pqRoot, Option.map_some, Option.toList_some]
        have hih := ih z zs (some (pqExtract z zs).1.block) (by
          rw [hpend, hr2] at hqsum
          simp at hqsum hn ⊢
          omega) (by
          intro it hit
          exact hclean it (hmemrest it (hr2 ▸ hit)))
        refine List.Perm.trans ?_ hflat
        rw [hr2]
        have hstep : ((pqExtract x xs).1 :: z :: zs).flatMap itBlocks =
            (pqExtract x xs).1.block :: (z :: zs).flatMap itBlocks := by
          simp [itBlocks, hpend]
        rw [hstep]
        exact hih.cons _
    · simp only [brEmitFuel]
      rw [brNext_st_advance x xs blk b rest hpend]
      simp only [if_pos rfl, pqRoot, Option.map_some, Option.toList_some]
      have hih := ih { (pqExtract x xs).1 with block := b, pending := rest }
        (pqExtract x xs).2 (some (pqExtract { (pqExtract x xs).1 with block := b, pending := rest } (pqExtract x xs).2).1.block)
        (by
          rw [hpend] at hqsum
          simp at hqsum hn ⊢
          omega)
        (by
          intro it hit
          rcases List.mem_cons.mp hit with hit1 | hit1
          · rw [hit1]
            exact hclean (pqExtract x xs).1 hmemroot
          · exact hclean it (hmemrest it hit1))
      refine List.Perm.trans ?_ hflat
      have hstep : ((pqExtract x xs).1 :: (pqExtract x xs).2).flatMap itBlocks =
          (pqExtract x xs).1.block ::
            ({ (pqExtract x xs).1 with block := b, pending := rest }
              :: (pqExtract x xs).2).flatMap itBlocks := by
        simp [itBlocks, hpend]
      rw [hstep]
      exact hih.cons _

/-- Core merge lemma: over a clean queue of per-iterator sorted block
sequences, the root's block followed by the emitted blocks is sorted by
(series identifier, minimum timestamp). -/
theorem brEmit_core_sorted : ∀ (n : Nat) (x : partMergeIter) (xs : List partMergeIter)
    (blk : Option blockMetadata),
    ((x :: xs).map (fun it => it.pending.length + 1)).sum < n →
    (∀ it ∈ x :: xs, it.errOnExhaust = none) →
    (∀ it ∈ x :: xs, List.Pairwise bmLe (itBlocks it)) →
    List.Pairwise bmLe ((pqExtract x xs).1.block ::
      brEmitFuel n { err := none, block := blk, pih := x :: xs, nextBlockNoop := false }) := by
  intro n
  induction n with
  | zero =>
    intro x xs blk h _ _
    omega
  | succ n ih =>
    intro x xs blk hn hclean hsorted
    have hqsum := pqExtract_qSum x xs
    have hmemroot : (pqExtract x xs).1 ∈ x :: xs :=
      (pqExtract_perm x xs).mem_iff.mp (by simp)
    have hmemrest : ∀ z ∈ (pqExtract x xs).2, z ∈ x :: xs := by
      intro z hz
      exact (pqExtract_perm x xs).mem_iff.mp (by simp [hz])
    have hrootle := pqExtract_root_le x xs
    have hbound : ∀ (l : List partMergeIter), (∀ it ∈ l, it ∈ x :: xs ∨
        (it.block ∈ (pqExtract x xs).1.pending ∧
         ∀ y ∈ it.pending, y ∈ (pqExtract x xs).1.pending)) →
        ∀ y ∈ l.flatMap itBlocks, bmLe (pqExtract x xs).1.block y := by
      intro l hl y hy
      rw [List.mem_flatMap] at hy
      obtain ⟨it, hit, hyit⟩ := hy
      rcases hl it hit with hcase | hcase
      · have h1 : bmLe (pqExtract x xs).1.block it.block := hrootle it hcase
        have h2 : bmLe it.block y := itBlock_head_le it (hsorted it hcase) y hyit
        exact bmLe_trans h1 h2
      · have hrs := hsorted (pqExtract x xs).1 hmemroot
        unfold itBlocks at hrs
        have hhead := (List.pairwise_cons.mp hrs).1
        rcases List.mem_cons.mp hyit with hy1 | hy1
        · rw [hy1]
          exact hhead it.block hcase.1
        · exact hhead y (hcase.2 y hy1)
    rcases hpend : (pqExtract x xs).1.pending with _ | ⟨b, rest⟩
    · have herr : (pqExtract x xs).1.errOnExhaust = none := hclean _ hmemroot
      rcases hr2 : (pqExtract x xs).2 with _ | ⟨z, zs⟩
      · simp only [brEmitFuel]
        rw [brNext_st_pop_last x xs blk hpend herr hr2]
        simp
      · simp only [brEmitFuel]
        rw [brNext_st_pop x xs blk z zs hpend herr hr2]
        simp only [if_pos rfl, pqRoot, Option.map_some, Option.toList_some]
        have hmn : ((z :: zs).map (fun it => it.pending.length + 1)).sum < n := by
          rw [hpend, hr2] at hqsum
          simp at hqsum hn ⊢
          omega
        have hcl : ∀ it ∈ z :: zs, it.errOnExhaust = none := by
          intro it hit
          exact hclean it (hmemrest it (hr2 ▸ hit))
        have hso : ∀ it ∈ z :: zs, List.Pairwise bmLe (itBlocks it) := by
          intro it hit
          exact hsorted it (hmemrest it (hr2 ▸ hit))
        have hih := ih z zs (some (pqExtract z zs).1.block) hmn hcl hso
        rw [List.pairwise_cons]
        refine ⟨?_, hih⟩
        intro y hy
        have hyperm := (brEmit_core_perm n z zs (some (pqExtract z zs).1.block)
          hmn hcl).mem_iff.mp hy
        refine hbound (z :: zs) ?_ y hyperm
        intro it hit
        exact Or.inl (hmemrest it (hr2 ▸ hit))
    · simp only [brEmitFuel]
      rw [brNext_st_advance x xs blk b rest hpend]
      simp only [if_pos rfl, pqRoot, Option.map_some, Option.toList_some]
      have hmn : (({ (pqExtract x xs).1 with block := b, pending := rest }
          :: (pqExtract x xs).2).map (fun it => it.pending.length + 1)).sum < n := by
        rw [hpend] at hqsum
        simp at hqsum hn ⊢
        omega
      have hcl : ∀ it ∈ { (pqExtract x xs).1 with block := b, pending := rest }
          :: (pqExtract x xs).2, it.errOnExhaust = none := by
        intro it hit
        rcases List.mem_cons.mp hit with hit1 | hit1
        · rw [hit1]
          exact hclean (pqExtract x xs).1 hmemroot
        · exact hclean it (hmemrest it hit1)
      have hso : ∀ it ∈ { (pqExtract x xs).1 with block := b, pending := rest }
          :: (pqExtract x xs).2, List.Pairwise bmLe (itBlocks it) := by
        intro it hit
        rcases List.mem_cons.mp hit with hit1 | hit1
        · rw [hit1]
          have hrs := hsorted (pqExtract x xs).1 hmemroot
          unfold itBlocks at hrs ⊢
          rw [hpend] at hrs
          exact (List.pairwise_cons.mp hrs).2
        · exact hsorted it (hmemrest it hit1)
      have hih := ih { (pqExtract x xs).1 with block := b, pending := rest }
        (pqExtract x xs).2
        (some (pqExtract { (pqExtract x xs).1 with block := b, pending := rest }
          (pqExtract x xs).2).1.block) hmn hcl hso
      rw [List.pairwise_cons]
      refine ⟨?_, hih⟩
      intro y hy
      have hyperm := (brEmit_core_perm n
        { (pqExtract x xs).1 with block := b, pending := rest } (pqExtract x xs).2
        (some (pqExtract { (pqExtract x xs).1 with block := b, pending := rest }
          (pqExtract x xs).2).1.block) hmn hcl).mem_iff.mp hy
      refine hbound _ ?_ y hyperm
      intro it hit
      rcases List.mem_cons.mp hit with hit1 | hit1
      · right
        rw [hit1, hpend]
        constructor
        · simp
        · intro y2 hy2
          simp [hy2]
      · exact Or.inl (hmemrest it hit1)

theorem initIters_clean_split (xs : List partMergeIter)
    (h : ∀ it ∈ xs, it.errOnExhaust = none) : ∀ (acc rest : List partMergeIter),
    initIters acc (xs ++ rest) =
      initIters (acc ++ xs.filterMap (fun it =>
        match it.pending with
        | [] => none
        | b :: r => some { it with block := b, pending := r })) rest := by
  induction xs with
  | nil =>
    intro acc rest
    simp
  | cons it xs ih =>
    intro acc rest
    rw [List.cons_append]
    rcases hp : it.pending with _ | ⟨b, br⟩
    · have hstep : initIters acc (it :: (xs ++ rest)) = initIters acc (xs ++ rest) := by
        simp only [initIters, pmNextBlockMetadata, pmError, hp]
        simp [h it (by simp)]
      rw [hstep, ih (fun z hz => h z (by simp [hz])) acc rest]
      simp [List.filterMap_cons, hp]
    · have hstep : initIters acc (it :: (xs ++ rest)) =
          initIters (acc ++ [{ it with block := b, pending := br }]) (xs ++ rest) := by
        simp only [initIters, pmNextBlockMetadata, hp]
        simp
      rw [hstep, ih (fun z hz => h z (by simp [hz]))]
      simp [List.filterMap_cons, hp]

theorem freshIter_filterMap (ins : List (List blockMetadata)) :
    (ins.map freshIter).filterMap (fun it =>
        match it.pending with
        | [] => none
        | b :: r => some { it with block := b, pending := r }) =
      ins.filterMap seedIter := by
  rw [List.filterMap_map]
  apply List.filterMap_congr
  intro L _
  cases L with
  | nil => rfl
  | cons b r => rfl

theorem seed_flatMap (ins : List (List blockMetadata)) :
    (ins.filterMap seedIter).flatMap itBlocks = ins.flatten := by
  induction ins with
  | nil => rfl
  | cons L rest ih =>
    cases L with
    | nil =>
      rw [List.filterMap_cons]
      simp only [seedIter, List.flatten_cons]
      rw [ih]
      simp
    | cons b r =>
      rw [List.filterMap_cons]
      simp only [seedIter, List.flatten_cons]
      simp [itBlocks, ih]

theorem brEmit_brState (y : partMergeIter) (ys : List partMergeIter) :
    brEmit { err := none, block := (pqRoot (y :: ys)).map (fun it => it.block),
             pih := y :: ys, nextBlockNoop := true } =
      (pqExtract y ys).1.block ::
        brEmitFuel (((y :: ys).map (fun it => it.pending.length + 1)).sum + 1)
          { err := none, block := (pqRoot (y :: ys)).map (fun it => it.block),
            pih := y :: ys, nextBlockNoop := false } := by
  have hmeas : brMeasure { err := none, block := (pqRoot (y :: ys)).map (fun it => it.block),
                           pih := y :: ys, nextBlockNoop := true } =
      ((y :: ys).map (fun it => it.pending.length + 1)).sum + 1 := by
    simp [brMeasure]
  have hnoop : brNextBlockMetadata { err := none,
                                     block := (pqRoot (y :: ys)).map (fun it => it.block),
                                     pih := y :: ys, nextBlockNoop := true } =
      (true, { err := none, block := (pqRoot (y :: ys)).map (fun it => it.block),
               pih := y :: ys, nextBlockNoop := false }) := by
    unfold brNextBlockMetadata
    simp
  unfold brEmit
  rw [hmeas]
  simp only [brEmitFuel]
  rw [hnoop]
  simp [pqRoot]

theorem blockReaderInit_fresh (ins : List (List blockMetadata)) :
    blockReaderInit (ins.map freshIter) =
      if (ins.filterMap seedIter) = [] then
        { err := some .eof, block := none, pih := [], nextBlockNoop := false }
      else
        { err := none,
          block := (pqRoot (ins.filterMap seedIter)).map (fun it => it.block),
          pih := ins.filterMap seedIter,
          nextBlockNoop := true } := by
  have hclean : ∀ it ∈ ins.map freshIter, it.errOnExhaust = none := by
    intro it hit
    rw [List.mem_map] at hit
    obtain ⟨L, _, hL⟩ := hit
    rw [← hL]
    rfl
  have h1 := initIters_clean_split (ins.map freshIter) hclean [] []
  rw [List.append_nil] at h1
  simp only [initIters, List.nil_append] at h1
  rw [freshIter_filterMap] at h1
  unfold blockReaderInit
  simp only [h1]

/-- C1: merging per-segment iterators over individually sorted
block-metadata sequences — `blockReader.init` followed by repeated
`nextBlockMetadata` — emits exactly the multiset union of the inputs
(a permutation of their concatenation) in globally ascending
(series identifier, timestamp) order, and inserting an immediately
exhausted, error-free iterator anywhere in the input leaves the emitted
sequence unchanged. -/
theorem blockReader_merge_spec (inputs : List (List blockMetadata))
    (hsorted : ∀ l ∈ inputs, List.Pairwise bmLe l) :
    (brEmit (blockReaderInit (inputs.map freshIter))).Perm inputs.flatten ∧
    List.Pairwise bmLe (brEmit (blockReaderInit (inputs.map freshIter))) ∧
    (∀ pre post, inputs = pre ++ post →
      brEmit (blockReaderInit ((pre ++ [[]] ++ post).map freshIter)) =
        brEmit (blockReaderInit (inputs.map freshIter))) := by
  have hmain : ∀ ins : List (List blockMetadata), (∀ l ∈ ins, List.Pairwise bmLe l) →
      (brEmit (blockReaderInit (ins.map freshIter))).Perm ins.flatten ∧
      List.Pairwise bmLe (brEmit (blockReaderInit (ins.map freshIter))) := by
    intro ins hs
    rw [blockReaderInit_fresh]
    rcases hA : ins.filterMap seedIter with _ | ⟨y, ys⟩
    · rw [if_pos rfl]
      have hflat : ins.flatten = [] := by
        have hsf := seed_flatMap ins
        rw [hA] at hsf
        simpa using hsf.symm
      have hemit : brEmit { err := some mergeErr.eof, block := none, pih := [],
                            nextBlockNoop := false } = [] := rfl
      rw [hemit, hflat]
      exact ⟨List.Perm.refl [], by simp⟩
    · rw [if_neg (by simp)]
      have hmem : ∀ it ∈ y :: ys, it.pending.length + 0 = it.pending.length ∧
          it.errOnExhaust = none ∧ List.Pairwise bmLe (itBlocks it) := by
        intro it hit
        rw [← hA] at hit
        rw [List.mem_filterMap] at hit
        obtain ⟨L, hL, hLit⟩ := hit
        cases L with
        | nil => simp [seedIter] at hLit
        | cons b r =>
          simp only [seedIter, Option.some_inj] at hLit
          rw [← hLit]
          refine ⟨rfl, rfl, ?_⟩
          have := hs (b :: r) hL
          unfold itBlocks
          exact this
      have hclean2 : ∀ it ∈ y :: ys, it.errOnExhaust = none :=
        fun it hit => (hmem it hit).2.1
      have hsorted2 : ∀ it ∈ y :: ys, List.Pairwise bmLe (itBlocks it) :=
        fun it hit => (hmem it hit).2.2
      have hflat3 : (y :: ys).flatMap itBlocks = ins.flatten := by
        rw [← hA]
        exact seed_flatMap ins
      rw [brEmit_brState]
      have hlt : ((y :: ys).map (fun it => it.pending.length + 1)).sum <
          ((y :: ys).map (fun it => it.pending.length + 1)).sum + 1 := by omega
      have hperm := brEmit_core_perm (((y :: ys).map (fun it => it.pending.length + 1)).sum + 1)
        y ys ((pqRoot (y :: ys)).map (fun it => it.block)) hlt hclean2
      have hsort := brEmit_core_sorted (((y :: ys).map (fun it => it.pending.length + 1)).sum + 1)
        y ys ((pqRoot (y :: ys)).map (fun it => it.block)) hlt hclean2 hsorted2
      rw [hflat3] at hperm
      exact ⟨hperm, hsort⟩
  refine ⟨(hmain inputs hsorted).1, (hmain inputs hsorted).2, ?_⟩
  intro pre post hsplit
  have hfm : (pre ++ [[]] ++ post).filterMap seedIter =
      (pre ++ post).filterMap seedIter := by
    simp only [List.append_assoc, List.filterMap_append, List.filterMap_cons]
    rfl
  rw [blockReaderInit_fresh, blockReaderInit_fresh, hsplit, hfm]

/-- C1 witness: three concrete sorted inputs, one of them empty — the merge
emits the sorted union, and the empty input is immaterial. -/
theorem blockReader_merge_spec_witness :
    (brEmit (blockReaderInit ([[⟨1, 1⟩, ⟨1, 5⟩], [⟨1, 3⟩], [⟨2, 0⟩]].map freshIter))).Perm
      ([[⟨1, 1⟩, ⟨1, 5⟩], [⟨1, 3⟩], [⟨2, 0⟩]] : List (List blockMetadata)).flatten ∧
    List.Pairwise bmLe
      (brEmit (blockReaderInit ([[⟨1, 1⟩, ⟨1, 5⟩], [⟨1, 3⟩], [⟨2, 0⟩]].map freshIter))) ∧
    (∀ pre post, ([[⟨1, 1⟩, ⟨1, 5⟩], [⟨1, 3⟩], [⟨2, 0⟩]] : List (List blockMetadata)) =
        pre ++ post →
      brEmit (blockReaderInit ((pre ++ [[]] ++ post).map freshIter)) =
        brEmit (blockReaderInit ([[⟨1, 1⟩, ⟨1, 5⟩], [⟨1, 3⟩], [⟨2, 0⟩]].map freshIter))) :=
  blockReader_merge_spec [[⟨1, 1⟩, ⟨1, 5⟩], [⟨1, 3⟩], [⟨2, 0⟩]] (by decide)

/-- An iterator produced by `seedIter` carries no exhaustion error. -/
theorem seedIter_clean (ins : List (List blockMetadata)) (it : partMergeIter)
    (hit : it ∈ ins.filterMap seedIter) : it.errOnExhaust = none := by
  rw [List.mem_filterMap] at hit
  obtain ⟨L, _, hLit⟩ := hit
  cases L with
  | nil => simp [seedIter] at hLit
  | cons c r =>
    simp only [seedIter, Option.some_inj] at hLit
    rw [← hLit]

/-- A pending reader error makes `nextBlockMetadata` return false at once. -/
theorem brNextBlockMetadata_err (br : blockReader) (m : mergeErr)
    (h : br.err = some m) : (brNextBlockMetadata br).1 = false := by
  unfold brNextBlockMetadata
  simp [h]

/-- A wrapped iterator error reads back from `blockReader.error` unchanged
(it is not `io.EOF`, so it is not filtered out). -/
theorem blockReaderError_wrapped (br : blockReader) (e : String)
    (h : br.err = some (.wrapped e)) : blockReaderError br = some (.wrapped e) := by
  unfold blockReaderError
  rw [h]

/-- Clean-run core lemma: from a running state over a non-empty queue of
error-free iterators, the merge drains the queue completely and stops in
the empty state with `io.EOF` recorded. -/
theorem brFinalFuel_clean : ∀ (n : Nat) (x : partMergeIter) (xs : List partMergeIter)
    (blk : Option blockMetadata),
    ((x :: xs).map (fun it => it.pending.length + 1)).sum < n →
    (∀ it ∈ x :: xs, it.errOnExhaust = none) →
    brFinalFuel n { err := none, block := blk, pih := x :: xs, nextBlockNoop := false } =
      { err := some .eof, block := none, pih := [], nextBlockNoop := false } := by
  intro n
  induction n with
  | zero =>
    intro x xs blk h _
    omega
  | succ n ih =>
    intro x xs blk hn hclean
    have hqsum := pqExtract_qSum x xs
    have hmemroot : (pqExtract x xs).1 ∈ x :: xs :=
      (pqExtract_perm x xs).mem_iff.mp (by simp)
    have hmemrest : ∀ z ∈ (pqExtract x xs).2, z ∈ x :: xs := by
      intro z hz
      exact (pqExtract_perm x xs).mem_iff.mp (by simp [hz])
    rcases hpend : (pqExtract x xs).1.pending with _ | ⟨b, rest⟩
    · have herr : (pqExtract x xs).1.errOnExhaust = none := hclean _ hmemroot
      rcases hr2 : (pqExtract x xs).2 with _ | ⟨z, zs⟩
      · simp only [brFinalFuel]
        rw [brNext_st_pop_last x xs blk hpend herr hr2]
        simp only [Bool.false_eq_true, if_false]
      · simp only [brFinalFuel]
        rw [brNext_st_pop x xs blk z zs hpend herr hr2]
        simp only [if_pos rfl, pqRoot, Option.map_some]
        exact ih z zs (some ((pqExtract z zs).1.block)) (by
          rw [hpend, hr2] at hqsum
          simp at hqsum hn ⊢
          omega) (by
          intro it hit
          exact hclean it (hmemrest it (hr2 ▸ hit)))
    · simp only [brFinalFuel]
      rw [brNext_st_advance x xs blk b rest hpend]
      simp only [if_pos rfl, pqRoot, Option.map_some]
      exact ih { (pqExtract x xs).1 with block := b, pending := rest }
        (pqExtract x xs).2
        (some ((pqExtract { (pqExtract x xs).1 with block := b, pending := rest }
          (pqExtract x xs).2).1.block))
        (by
          rw [hpend] at hqsum
          simp at hqsum hn ⊢
          omega)
        (by
          intro it hit
          rcases List.mem_cons.mp hit with hit1 | hit1
          · rw [hit1]
            exact hclean (pqExtract x xs).1 hmemroot
          · exact hclean it (hmemrest it hit1))

/-- Bad-run core lemma: if every iterator of the running queue is either
clean or carries the exhaustion error `e` and at least one carries it, the
merge stops with the wrapped error recorded — the failing iterator is never
popped, so the queue cannot drain cleanly. -/
theorem brFinalFuel_bad : ∀ (n : Nat) (x : partMergeIter) (xs : List partMergeIter)
    (blk : Option blockMetadata) (e : String),
    ((x :: xs).map (fun it => it.pending.length + 1)).sum < n →
    (∀ it ∈ x :: xs, it.errOnExhaust = none ∨ it.errOnExhaust = some e) →
    (∃ it ∈ x :: xs, it.errOnExhaust = some e) →
    (brFinalFuel n { err := none, block := blk, pih := x :: xs,
                     nextBlockNoop := false }).err = some (.wrapped e) := by
  intro n
  induction n with
  | zero =>
    intro x xs blk e h _ _
    omega
  | succ n ih =>
    intro x xs blk e hn hce hex
    have hqsum := pqExtract_qSum x xs
    have hmemroot : (pqExtract x xs).1 ∈ x :: xs :=
      (pqExtract_perm x xs).mem_iff.mp (by simp)
    have hmemrest : ∀ z ∈ (pqExtract x xs).2, z ∈ x :: xs := by
      intro z hz
      exact (pqExtract_perm x xs).mem_iff.mp (by simp [hz])
    rcases hpend : (pqExtract x xs).1.pending with _ | ⟨b, rest⟩
    · rcases herr : (pqExtract x xs).1.errOnExhaust with _ | e1
      · rcases hr2 : (pqExtract x xs).2 with _ | ⟨z, zs⟩
        · exfalso
          obtain ⟨w, hw, hwe⟩ := hex
          have hwmem : w ∈ (pqExtract x xs).1 :: (pqExtract x xs).2 :=
            (pqExtract_perm x xs).mem_iff.mpr hw
          rw [hr2] at hwmem
          simp at hwmem
          rw [hwmem, herr] at hwe
          exact Option.noConfusion hwe
        · simp only [brFinalFuel]
          rw [brNext_st_pop x xs blk z zs hpend herr hr2]
          simp only [if_pos rfl, pqRoot, Option.map_some]
          refine ih z zs (some ((pqExtract z zs).1.block)) e (by
            rw [hpend, hr2] at hqsum
            simp at hqsum hn ⊢
            omega) (by
            intro it hit
            exact hce it (hmemrest it (hr2 ▸ hit))) ?_
          obtain ⟨w, hw, hwe⟩ := hex
          have hwmem : w ∈ (pqExtract x xs).1 :: (pqExtract x xs).2 :=
            (pqExtract_perm x xs).mem_iff.mpr hw
          rcases List.mem_cons.mp hwmem with hw1 | hw1
          · exfalso
            rw [hw1, herr] at hwe
            exact Option.noConfusion hwe
          · exact ⟨w, hr2 ▸ hw1, hwe⟩
      · have he1 : e1 = e := by
          rcases hce _ hmemroot with hc | hc
          · rw [herr] at hc
            exact absurd hc (by simp)
          · rw [herr] at hc
            exact Option.some_inj.mp hc
        rw [he1] at herr
        simp only [brFinalFuel]
        rw [brNext_st_bad x xs blk e hpend herr]
        simp only [Bool.false_eq_true, if_false]
    · simp only [brFinalFuel]
      rw [brNext_st_advance x xs blk b rest hpend]
      simp only [if_pos rfl, pqRoot, Option.map_some]
      refine ih { (pqExtract x xs).1 with block := b, pending := rest }
        (pqExtract x xs).2
        (some ((pqExtract { (pqExtract x xs).1 with block := b, pending := rest }
          (pqExtract x xs).2).1.block)) e
        (by
          rw [hpend] at hqsum
          simp at hqsum hn ⊢
          omega)
        (by
          intro it hit
          rcases List.mem_cons.mp hit with hit1 | hit1
          · rw [hit1]
            exact hce (pqExtract x xs).1 hmemroot
          · exact hce it (hmemrest it hit1)) ?_
      obtain ⟨w, hw, hwe⟩ := hex
      have hwmem : w ∈ (pqExtract x xs).1 :: (pqExtract x xs).2 :=
        (pqExtract_perm x xs).mem_iff.mpr hw
      rcases List.mem_cons.mp hwmem with hw1 | hw1
      · refine ⟨{ (pqExtract x xs).1 with block := b, pending := rest }, by simp, ?_⟩
        rw [← hw1]
        exact hwe
      · exact ⟨w, by simp [hw1], hwe⟩

/-- Consuming the post-init noop: the final state of a freshly initialized
reader equals the final state of the corresponding running state, reached
with the leftover fuel. -/
theorem brFinal_noop (blk : Option blockMetadata) (y : partMergeIter)
    (ys : List partMergeIter) :
    brFinal { err := none, block := blk, pih := y :: ys, nextBlockNoop := true } =
      brFinalFuel (((y :: ys).map (fun it => it.pending.length + 1)).sum + 1)
        { err := none, block := blk, pih := y :: ys, nextBlockNoop := false } := by
  have hmeas : brMeasure { err := none, block := blk, pih := y :: ys,
                           nextBlockNoop := true } =
      ((y :: ys).map (fun it => it.pending.length + 1)).sum + 1 := by
    simp [brMeasure]
  have hnoop : brNextBlockMetadata { err := none, block := blk, pih := y :: ys,
                                     nextBlockNoop := true } =
      (true, { err := none, block := blk, pih := y :: ys, nextBlockNoop := false }) := by
    unfold brNextBlockMetadata
    simp
  unfold brFinal
  rw [hmeas]
  simp only [brFinalFuel]
  rw [hnoop]
  simp

/-- One `init` step over an iterator that is already exhausted with error
`e`: the loop stops at once with that error, discarding the tail. -/
theorem initIters_bad_step (acc tl : List partMergeIter) (e : String) :
    initIters acc ({ block := ⟨0, 0⟩, pending := [], errOnExhaust := some e } :: tl) =
      (acc, some e) := by
  simp only [initIters, pmNextBlockMetadata, pmError]
  simp

/-- One `init` step over an iterator holding a first block: the advance
succeeds and the live iterator joins the queue. -/
theorem initIters_badcons_step (acc tl : List partMergeIter) (b : blockMetadata)
    (bs : List blockMetadata) (e : String) :
    initIters acc ({ block := ⟨0, 0⟩, pending := b :: bs, errOnExhaust := some e } :: tl) =
      initIters (acc ++ [{ block := b, pending := bs, errOnExhaust := some e }]) tl := by
  simp only [initIters, pmNextBlockMetadata]
  simp

/-- `blockReader.init` over clean fresh iterators followed by an iterator
whose first advance fails with error `e`: the merge fails immediately with
the wrapped error. -/
theorem blockReaderInit_bad_empty (pre : List (List blockMetadata))
    (tl : List partMergeIter) (e : String) :
    blockReaderInit ((pre.map freshIter) ++
        { block := ⟨0, 0⟩, pending := [], errOnExhaust := some e } :: tl) =
      { err := some (.wrapped e), block := none, pih := [], nextBlockNoop := false } := by
  have hclean : ∀ it ∈ pre.map freshIter, it.errOnExhaust = none := by
    intro it hit
    rw [List.mem_map] at hit
    obtain ⟨L, _, hL⟩ := hit
    rw [← hL]
    rfl
  have h1 := initIters_clean_split (pre.map freshIter) hclean []
      ({ block := ⟨0, 0⟩, pending := [], errOnExhaust := some e } :: tl)
  unfold blockReaderInit
  rw [h1, initIters_bad_step]

/-- `blockReader.init` over clean fresh iterators, an iterator holding
blocks `b :: bs` before failing, and further clean fresh iterators: all
live iterators join the queue and the reader starts normally. -/
theorem blockReaderInit_bad_cons (pre post : List (List blockMetadata))
    (b : blockMetadata) (bs : List blockMetadata) (e : String) :
    blockReaderInit ((pre.map freshIter) ++
        { block := ⟨0, 0⟩, pending := b :: bs, errOnExhaust := some e } ::
        (post.map freshIter)) =
      { err := none,
        block := (pqRoot (pre.filterMap seedIter ++
          { block := b, pending := bs, errOnExhaust := some e } ::
          post.filterMap seedIter)).map (fun it => it.block),
        pih := pre.filterMap seedIter ++
          { block := b, pending := bs, errOnExhaust := some e } ::
          post.filterMap seedIter,
        nextBlockNoop := true } := by
  have hcleanpre : ∀ it ∈ pre.map freshIter, it.errOnExhaust = none := by
    intro it hit
    rw [List.mem_map] at hit
    obtain ⟨L, _, hL⟩ := hit
    rw [← hL]
    rfl
  have hcleanpost : ∀ it ∈ post.map freshIter, it.errOnExhaust = none := by
    intro it hit
    rw [List.mem_map] at hit
    obtain ⟨L, _, hL⟩ := hit
    rw [← hL]
    rfl
  have h1 := initIters_clean_split (pre.map freshIter) hcleanpre []
      ({ block := ⟨0, 0⟩, pending := b :: bs, errOnExhaust := some e } ::
        (post.map freshIter))
  unfold blockReaderInit
  rw [h1, initIters_badcons_step, ← List.append_nil (post.map freshIter),
    initIters_clean_split (post.map freshIter) hcleanpost]
  simp only [initIters, freshIter_filterMap, List.nil_append, List.append_assoc,
    List.singleton_append]
  simp

/-- C6: error handling of the merge reader.  After clean exhaustion of all
iterators, `blockReader.error` reads nil.  An iterator whose advance fails
during initialization makes `init` fail immediately: `nextBlockMetadata`
returns false and `error` surfaces the wrapped iterator error.  An iterator
that fails mid-stream, after yielding blocks `bb`, stops the merge: at the
final state `nextBlockMetadata` returns false and `error` surfaces the
wrapped iterator error. -/
theorem blockReader_error_spec
    (inputs pre post : List (List blockMetadata)) (bb : List blockMetadata)
    (e : String) (hbb : bb ≠ []) :
    blockReaderError (brFinal (blockReaderInit (inputs.map freshIter))) = none ∧
    ((brNextBlockMetadata (blockReaderInit ((pre.map freshIter) ++
          { block := ⟨0, 0⟩, pending := [], errOnExhaust := some e } ::
          (post.map freshIter)))).1 = false ∧
      blockReaderError (blockReaderInit ((pre.map freshIter) ++
          { block := ⟨0, 0⟩, pending := [], errOnExhaust := some e } ::
          (post.map freshIter))) = some (.wrapped e)) ∧
    ((brNextBlockMetadata (brFinal (blockReaderInit ((pre.map freshIter) ++
          { block := ⟨0, 0⟩, pending := bb, errOnExhaust := some e } ::
          (post.map freshIter))))).1 = false ∧
      blockReaderError (brFinal (blockReaderInit ((pre.map freshIter) ++
          { block := ⟨0, 0⟩, pending := bb, errOnExhaust := some e } ::
          (post.map freshIter)))) = some (.wrapped e)) := by
  refine ⟨?_, ⟨?_, ?_⟩, ?_⟩
  · rw [blockReaderInit_fresh]
    rcases h : inputs.filterMap seedIter with _ | ⟨y, ys⟩
    · rw [if_pos rfl]
      rfl
    · rw [if_neg (by simp)]
      rw [brFinal_noop]
      have hclean : ∀ it ∈ y :: ys, it.errOnExhaust = none := by
        intro it hit
        rw [← h] at hit
        exact seedIter_clean inputs it hit
      rw [brFinalFuel_clean (((y :: ys).map (fun it => it.pending.length + 1)).sum + 1)
        y ys ((pqRoot (y :: ys)).map (fun it => it.block)) (by omega) hclean]
      rfl
  · rw [blockReaderInit_bad_empty]
    rfl
  · rw [blockReaderInit_bad_empty]
    rfl
  · rcases bb with _ | ⟨b, bs⟩
    · exact absurd rfl hbb
    · rw [blockReaderInit_bad_cons]
      rcases hP : pre.filterMap seedIter ++
          { block := b, pending := bs, errOnExhaust := some e } ::
          post.filterMap seedIter with _ | ⟨y, ys⟩
      · exact absurd hP (by simp)
      · rw [brFinal_noop]
        have hce : ∀ it ∈ y :: ys, it.errOnExhaust = none ∨ it.errOnExhaust = some e := by
          intro it hit
          rw [← hP] at hit
          rcases List.mem_append.mp hit with hl | hr
          · exact Or.inl (seedIter_clean pre it hl)
          · rcases List.mem_cons.mp hr with h1 | h1
            · right
              rw [h1]
            · exact Or.inl (seedIter_clean post it h1)
        have hex : ∃ it ∈ y :: ys, it.errOnExhaust = some e := by
          refine ⟨{ block := b, pending := bs, errOnExhaust := some e }, ?_, rfl⟩
          rw [← hP]
          simp
        have hbad := brFinalFuel_bad
          (((y :: ys).map (fun it => it.pending.length + 1)).sum + 1)
          y ys ((pqRoot (y :: ys)).map (fun it => it.block)) e (by omega) hce hex
        exact ⟨brNextBlockMetadata_err _ _ hbad, blockReaderError_wrapped _ _ hbad⟩

/-- C6 witness: at concrete inputs — two clean segments for the clean run,
and a failing iterator placed between a clean nonempty and a clean empty
segment — the clean run ends with nil error while both failure modes stop
with the wrapped error. -/
theorem blockReader_error_spec_witness :
    (([⟨2, 3⟩] : List blockMetadata) ≠ []) ∧
    (blockReaderError (brFinal (blockReaderInit (([[⟨1, 1⟩], []] :
        List (List blockMetadata)).map freshIter))) = none ∧
    ((brNextBlockMetadata (blockReaderInit ((([[⟨1, 2⟩]] :
          List (List blockMetadata)).map freshIter) ++
          { block := ⟨0, 0⟩, pending := [], errOnExhaust := some "boom" } ::
          (([[]] : List (List blockMetadata)).map freshIter)))).1 = false ∧
      blockReaderError (blockReaderInit ((([[⟨1, 2⟩]] :
          List (List blockMetadata)).map freshIter) ++
          { block := ⟨0, 0⟩, pending := [], errOnExhaust := some "boom" } ::
          (([[]] : List (List blockMetadata)).map freshIter))) =
        some (.wrapped "boom")) ∧
    ((brNextBlockMetadata (brFinal (blockReaderInit ((([[⟨1, 2⟩]] :
          List (List blockMetadata)).map freshIter) ++
          { block := ⟨0, 0⟩, pending := [⟨2, 3⟩], errOnExhaust := some "boom" } ::
          (([[]] : List (List blockMetadata)).map freshIter))))).1 = false ∧
      blockReaderError (brFinal (blockReaderInit ((([[⟨1, 2⟩]] :
          List (List blockMetadata)).map freshIter) ++
          { block := ⟨0, 0⟩, pending := [⟨2, 3⟩], errOnExhaust := some "boom" } ::
          (([[]] : List (List blockMetadata)).map freshIter)))) =
        some (.wrapped "boom"))) :=
  ⟨by decide, blockReader_error_spec [[⟨1, 1⟩], []] [[⟨1, 2⟩]] [[]] [⟨2, 3⟩] "boom"
    (by decide)⟩
